import Mathlib

/-!
Verification development for the graph-construction engine of
`sphinxcontrib-traceables` (`graph.py`).

The engine walks a relationship graph among tagged entities ("traceables"),
starting from a set of start entities, along a list of relationship specs
`(type, optional max depth)`, records discovered edges, canonicalizes
negative-direction edges after each start's walk, and exposes the discovered
entities and edges in sorted order.

Modelling conventions:
* an entity (`Traceable`) is represented by its tag, a `Nat`; the entity
  model is external to `graph.py` (it lives in the `infrastructure` module),
  and per the spec entities are totally ordered by tag;
* a Python `set` is represented as a duplicate-free `List`, inserted into
  only after a membership test (exactly as `graph.py` itself guards every
  `add` to `_relationships`), and read out through `sorted(...)`, which we
  model with `List.insertionSort`;
* the recursive walk `GraphInput._walk_traceable` is given an explicit fuel
  parameter so that it is structurally recursive; all theorems about the
  complete walk either hold for every fuel or are stated for a fuel that is
  provably sufficient (`sufficientFuel`, one more than the number of
  oriented edges the walk could ever record);
* Python exceptions (`ValueError` from `int(...)`, `self.Error`) are
  modelled with `Except`.
-/

deriving instance DecidableEq for Except

namespace Traceables

/-- Modelled from the spec: the relationship registry and entity storage
(`self.storage`, from the `infrastructure` module, which is not part of the
`graph` module).  It validates relationship-type names, reports each type's
direction sign, maps each type to its semantic opposite, lists all known
relationship types with their directions, and resolves a tag string to an
entity (`get_traceable_by_tag`, raising `KeyError`—here `none`—when the tag
is unknown). -/
structure Storage where
  relationship_directions : List (String × Int)
  opposites : String → String
  traceable_by_tag : String → Option Nat

/-- Registry lookup of a relationship type's direction sign
(`storage.get_relationship_direction`); `0` stands for the out-of-contract
answer on an unknown type, which the engine never relies on. -/
def Storage.get_relationship_direction (st : Storage) (rel : String) : Int :=
  (st.relationship_directions.lookup rel).getD 0

/-- Registry validation of a relationship-type name
(`storage.is_valid_relationship`). -/
def Storage.is_valid_relationship (st : Storage) (rel : String) : Bool :=
  (st.relationship_directions.lookup rel).isSome

/-- Registry lookup of a relationship type's opposite
(`storage.get_relationship_opposite`). -/
def Storage.get_relationship_opposite (st : Storage) (rel : String) : String :=
  st.opposites rel

/-- Modelled from the spec: the entity graph the registry stores.  Each
entity has a mapping from relationship-type name to an ordered collection of
related entities (`traceable.relationships.get(relationship, ())`); the
entity set is finite. -/
structure EntityGraph where
  entities : List Nat
  rels : Nat → String → List Nat

/-- A discovered oriented edge: `(source, target, relationship-type name,
direction sign)`, the `relationship_info` tuple of `_walk_traceable`. -/
abbrev Edge := Nat × Nat × String × Int

/-- The mutable discovery state of one `GraphInput`: the `_traceables` and
`_relationships` sets, modelled as duplicate-free lists. -/
structure GraphState where
  traceables : List Nat
  rels : List Edge
  deriving DecidableEq

/-- Python `set.add` on `_traceables`: append only when absent. -/
def insertTraceable (s : GraphState) (t : Nat) : GraphState :=
  { s with traceables := if t ∈ s.traceables then s.traceables else s.traceables ++ [t] }

/-- Recording a new oriented edge in `_relationships` (the caller checks
membership first, mirroring line 231 of `graph.py`). -/
def pushEdge (s : GraphState) (e : Edge) : GraphState :=
  { s with rels := s.rels ++ [e] }

/-- Depth guard of `_walk_traceable` (line 224): Python
`if max_length and length >= max_length: continue`.  `None` and `0` are
falsy, every other integer (negative ones included) is truthy. -/
def pyGuard : Option Int → Nat → Bool
  | none, _ => false
  | some m, len => if m = 0 then false else decide (m ≤ (len : Int))

/-- Inner loop of `_walk_traceable` over the relatives reachable from
`t` via one relationship type (lines 228-233): for each relative, form the
oriented edge, and when it is not yet recorded, record it and recurse (the
recursion is the abstract `w`, instantiated with the walk at one fuel less). -/
def walkRels (w : Nat → Nat → GraphState → GraphState) (t : Nat) (len : Nat)
    (rel : String) (dir : Int) : List Nat → GraphState → GraphState
  | [], s => s
  | r :: rs, s =>
    let e : Edge := (t, r, rel, dir)
    let s' := if e ∈ s.rels then s else w r (len + 1) (pushEdge s e)
    walkRels w t len rel dir rs s'

/-- Middle loop of `_walk_traceable` over the relationship specs
(lines 223-233): skip a spec whose depth guard fires, otherwise fetch the
type's direction and process the relatives. -/
def walkPairs (st : Storage) (g : EntityGraph) (w : Nat → Nat → GraphState → GraphState)
    (t : Nat) (len : Nat) : List (String × Option Int) → GraphState → GraphState
  | [], s => s
  | (rel, maxLen) :: ps, s =>
    let s' := if pyGuard maxLen len then s
              else walkRels w t len rel (st.get_relationship_direction rel) (g.rels t rel) s
    walkPairs st g w t len ps s'

/-- The recursive walk `GraphInput._walk_traceable(traceable, length)`
(lines 221-233), with an explicit fuel: add the entity to `_traceables`,
then process every relationship spec.  Fuel `0` models a recursion budget
that has run out; every theorem below either holds for all fuels or is
stated at a provably sufficient fuel. -/
def walkTraceable (st : Storage) (g : EntityGraph) (pairs : List (String × Option Int)) :
    Nat → Nat → Nat → GraphState → GraphState
  | 0 => fun _ _ s => s
  | fuel + 1 => fun t len s =>
    walkPairs st g (walkTraceable st g pairs fuel) t len pairs (insertTraceable s t)

/-- Direction canonicalization pass of `add_traceable_walk`
(lines 213-219): iterate over a snapshot of `_relationships`; every edge
discovered with direction `-1` is removed and replaced by the reversed edge
under the opposite relationship type with direction `+1` (`set.add`
deduplicates, hence the membership test before appending). -/
def canonPass (st : Storage) : List Edge → List Edge → List Edge
  | [], rels => rels
  | info :: rest, rels =>
    let rels' :=
      if info.2.2.2 = -1 then
        let rev : Edge := (info.2.1, info.1, st.get_relationship_opposite info.2.2.1, 1)
        let removed := rels.erase info
        if rev ∈ removed then removed else removed ++ [rev]
      else rels
    canonPass st rest rels'

/-- The entry point `GraphInput.add_traceable_walk(traceable)`
(lines 209-219): walk from the entity at depth 0, then make all recorded
relationships forward in direction. -/
def add_traceable_walk (st : Storage) (g : EntityGraph) (pairs : List (String × Option Int))
    (fuel : Nat) (t : Nat) (s : GraphState) : GraphState :=
  let s1 := walkTraceable st g pairs fuel t 0 s
  { s1 with rels := canonPass st s1.rels s1.rels }

/-- The oriented edges the walk could ever record: one candidate per entity,
relationship spec, and listed relative, with the direction the registry
reports for the spec's type. -/
def edgeUniverse (st : Storage) (g : EntityGraph) (pairs : List (String × Option Int)) :
    List Edge :=
  g.entities.flatMap fun t => pairs.flatMap fun p =>
    (g.rels t p.1).map fun r => (t, r, p.1, st.get_relationship_direction p.1)

/-- A fuel that provably lets every recursive call of the walk run to
completion: one more than the number of candidate oriented edges. -/
def sufficientFuel (st : Storage) (g : EntityGraph) (pairs : List (String × Option Int)) : Nat :=
  (edgeUniverse st g pairs).length + 1

/-- `GraphProcessor.construct_graph_input` (lines 133-137): create a fresh
`GraphInput` (empty discovery state) and run `add_traceable_walk` for each
start entity in order, sharing the one mutable state. -/
def construct_graph_input (st : Storage) (g : EntityGraph)
    (pairs : List (String × Option Int)) (fuel : Nat) (starts : List Nat) : GraphState :=
  starts.foldl (fun s t => add_traceable_walk st g pairs fuel t s) ⟨[], []⟩

/-- Lexicographic comparison of character lists by code point, the order
Python uses on `str`. -/
def charsLe : List Char → List Char → Bool
  | [], _ => true
  | _ :: _, [] => false
  | a :: as, b :: bs =>
    if a = b then charsLe as bs else decide (a.toNat < b.toNat)

/-- Lexicographic comparison of Python tuples
`(traceable, traceable, relationship-name, direction)` as `sorted` uses:
entities compare by tag, strings by code points, then the direction sign. -/
def edgeLeB (a b : Edge) : Bool :=
  if a.1 = b.1 then
    if a.2.1 = b.2.1 then
      if a.2.2.1 = b.2.2.1 then decide (a.2.2.2 ≤ b.2.2.2)
      else charsLe a.2.2.1.data b.2.2.1.data
    else decide (a.2.1 < b.2.1)
  else decide (a.1 < b.1)

/-- Propositional form of the edge-tuple order. -/
def edgeLe (a b : Edge) : Prop := edgeLeB a b = true

instance : DecidableRel edgeLe := fun a b => by unfold edgeLe; infer_instance

/-- The `GraphInput.traceables` property (lines 235-237):
`sorted(self._traceables)`, entities ordered by tag. -/
def traceablesSorted (s : GraphState) : List Nat :=
  List.insertionSort (· ≤ ·) s.traceables

/-- The `GraphInput.relationships` property (lines 239-241):
`sorted(self._relationships)`, edges ordered by tuple. -/
def relationshipsSorted (s : GraphState) : List Edge :=
  List.insertionSort edgeLe s.rels

/-- Python `str.strip` as applied by the parser: drop leading and trailing
whitespace characters. -/
def pyStrip (s : String) : String :=
  ⟨((s.data.dropWhile Char.isWhitespace).reverse.dropWhile Char.isWhitespace).reverse⟩

/-- Python `input.split(",")` on a nonempty string: split at every comma,
keeping empty pieces. -/
def splitCommaAux : List Char → List Char → List String
  | [], acc => [⟨acc.reverse⟩]
  | c :: cs, acc => if c = ',' then ⟨acc.reverse⟩ :: splitCommaAux cs [] else splitCommaAux cs (c :: acc)

/-- Python `input.split(",")`. -/
def splitComma (s : String) : List String := splitCommaAux s.data []

/-- Python `part.split(":", 1)`: split at the first colon only, returning
either one piece (no colon) or exactly two. -/
def splitColonOnceAux : List Char → List Char → List String
  | [], acc => [⟨acc.reverse⟩]
  | c :: cs, acc => if c = ':' then [⟨acc.reverse⟩, ⟨cs⟩] else splitColonOnceAux cs (c :: acc)

/-- Python `part.split(":", 1)`. -/
def splitColonOnce (s : String) : List String := splitColonOnceAux s.data []

/-- Digit-run parser for Python `int(str)`: ASCII digits with single
underscores allowed between digits.  The `Bool` argument records whether the
previous character was a digit (an underscore may only follow a digit and
must be followed by one, and the run must end in a digit). -/
def pyIntDigits : Nat → Bool → List Char → Option Nat
  | acc, prevDigit, [] => if prevDigit then some acc else none
  | acc, prevDigit, c :: cs =>
    if c.isDigit then pyIntDigits (10 * acc + (c.toNat - 48)) true cs
    else if c = '_' then (if prevDigit then pyIntDigits acc false cs else none)
    else none

/-- Python `int(str)` on the depth suffix: optional surrounding whitespace,
an optional sign, then a digit run; `none` models the `ValueError` Python
raises on anything else. -/
def pyInt (s : String) : Option Int :=
  match (pyStrip s).data with
  | '+' :: rest => (pyIntDigits 0 false rest).map Int.ofNat
  | '-' :: rest => (pyIntDigits 0 false rest).map (fun n => -(n : Int))
  | cs => (pyIntDigits 0 false cs).map Int.ofNat

/-- Failure modes of `GraphProcessor.parse_relationships`:
`ValueError("Invalid maximum length: ...")` carrying the offending item text
(line 116), and `self.Error("Invalid relationship: ...")` naming the unknown
type (line 122).  Neither is caught inside `process_doctree`, so either one
aborts the current diagram. -/
inductive ParseError where
  | malformedDepth (item : String)
  | unknownRelationship (name : String)
  deriving DecidableEq

/-- Handling of one comma-separated item by `parse_relationships`
(lines 109-125): split on the first colon; a present depth suffix must parse
as an integer (checked before anything else), then the relationship name is
validated against the registry.  The direction is also fetched (line 124)
but dropped again by the final comprehension (lines 130-131), so it does not
appear in the result. -/
def parseItem (st : Storage) (part : String) : Except ParseError (String × Option Int) :=
  match splitColonOnce part with
  | [relRaw, depthRaw] =>
    let rel := pyStrip relRaw
    match pyInt (pyStrip depthRaw) with
    | none => .error (.malformedDepth part)
    | some n =>
      if st.is_valid_relationship rel then .ok (rel, some n)
      else .error (.unknownRelationship rel)
  | _ =>
    let rel := pyStrip part
    if st.is_valid_relationship rel then .ok (rel, none)
    else .error (.unknownRelationship rel)

/-- Left-to-right processing of the comma-separated items; the first raised
exception aborts the whole parse. -/
def parseItems (st : Storage) : List String → Except ParseError (List (String × Option Int))
  | [] => .ok []
  | part :: rest =>
    match parseItem st part with
    | .error e => .error e
    | .ok p =>
      match parseItems st rest with
      | .error e => .error e
      | .ok l => .ok (p :: l)

/-- `GraphProcessor.parse_relationships(input)` (lines 106-131): a falsy
input (absent or empty string) yields one spec per relationship type known
to the registry, each with no depth limit; otherwise the comma-separated
items are parsed in order. -/
def parse_relationships (st : Storage) (input : Option String) :
    Except ParseError (List (String × Option Int)) :=
  match input with
  | none => .ok (st.relationship_directions.map fun p => (p.1, none))
  | some s =>
    if s = "" then .ok (st.relationship_directions.map fun p => (p.1, none))
    else parseItems st (splitComma s)

/-- Warning text of `get_start_traceables` (line 102) for an unresolvable
tag (quotation marks around the tag omitted). -/
def tagWarning (tag : String) : String :=
  "Traceables: no traceable with tag " ++ tag ++ " found!"

/-- Error text of `process_doctree` (lines 68-69) when no requested tag
resolves. -/
def noValidTagsMessage : String :=
  "Traceables: no valid tags for graph, so skipping graph"

/-- `GraphProcessor.get_start_traceables` (lines 94-104) after the external
`Traceable.split_tags_string` has produced the list of requested tags:
resolve each tag, keeping the resolvable ones in order and recording one
warning per unresolvable tag. -/
def get_start_traceables (st : Storage) : List String → List Nat × List String
  | [] => ([], [])
  | tag :: rest =>
    let res := get_start_traceables st rest
    match st.traceable_by_tag tag with
    | some t => (t :: res.1, res.2)
    | none => (res.1, tagWarning tag :: res.2)

/-- What a `traceable_graph` placeholder node is replaced by: either a
single error diagnostic (the `system_message` of lines 71-75) or a rendered
graph built from the walk result (the `graphviz` node of lines 87-92). -/
inductive NodeOutcome where
  | errorDiagnostic (message : String)
  | graphDiagram (gs : GraphState)
  deriving DecidableEq

/-- Processing of one graph node by `GraphProcessor.process_doctree`
(lines 61-92): resolve the start tags (collecting warnings); when none
resolves, warn and replace the diagram with a single error diagnostic;
otherwise parse the relationship specs — an `Except.error` models the
uncaught exception that aborts this diagram — and construct the graph input
by walking from every start entity. -/
def process_graph_node (st : Storage) (g : EntityGraph) (tags : List String)
    (relInput : Option String) : List String × Except ParseError NodeOutcome :=
  let res := get_start_traceables st tags
  if res.1 = [] then
    (res.2 ++ [noValidTagsMessage], .ok (.errorDiagnostic noValidTagsMessage))
  else
    match parse_relationships st relInput with
    | .error e => (res.2, .error e)
    | .ok pairs =>
      (res.2, .ok (.graphDiagram
        (construct_graph_input st g pairs (sufficientFuel st g pairs) res.1)))

/-- Entities reachable from the start set along edges of the allowed
relationship types, the "full reachable closure" of the spec. -/
inductive Reachable (g : EntityGraph) (types : List String) (starts : List Nat) : Nat → Prop where
  | start {t : Nat} : t ∈ starts → Reachable g types starts t
  | step {a b : Nat} {rel : String} : Reachable g types starts a → rel ∈ types →
      b ∈ g.rels a rel → Reachable g types starts b

/-! Order lemmas for the tuple comparison used by `sorted(...)`. -/

theorem charsLe_total (a : List Char) : ∀ b : List Char, charsLe a b = true ∨ charsLe b a = true := by
  induction a with
  | nil => intro b; left; rfl
  | cons x xs ih =>
    intro b
    cases b with
    | nil => right; rfl
    | cons y ys =>
      by_cases hxy : x = y
      · subst hxy; simpa [charsLe] using ih ys
      · have hne : x.toNat ≠ y.toNat := fun h => hxy (Char.ext (UInt32.ext h))
        simp only [charsLe, if_neg hxy, if_neg (Ne.symm hxy), decide_eq_true_eq]
        omega

theorem charsLe_trans : ∀ (a b c : List Char), charsLe a b = true → charsLe b c = true →
    charsLe a c = true := by
  intro a
  induction a with
  | nil => intro b c _ _; rfl
  | cons x xs ih =>
    intro b c hab hbc
    cases b with
    | nil => simp [charsLe] at hab
    | cons y ys =>
      cases c with
      | nil => simp [charsLe] at hbc
      | cons z zs =>
        by_cases hxy : x = y <;> by_cases hyz : y = z
        · subst hxy; subst hyz
          simp only [charsLe, if_pos rfl] at hab hbc ⊢
          exact ih ys zs hab hbc
        · subst hxy
          simp only [charsLe, if_pos rfl, if_neg hyz] at hab hbc
          simp only [charsLe, if_neg hyz]
          exact hbc
        · subst hyz
          simp only [charsLe, if_neg hxy, if_pos rfl] at hab
          simp only [charsLe, if_neg hxy]
          exact hab
        · simp only [charsLe, if_neg hxy, decide_eq_true_eq] at hab
          simp only [charsLe, if_neg hyz, decide_eq_true_eq] at hbc
          have hxz : x.toNat ≠ z.toNat := by omega
          have hxz' : x ≠ z := fun h => hxz (by rw [h])
          simp only [charsLe, if_neg hxz', decide_eq_true_eq]
          omega

theorem charsLe_antisymm : ∀ (a b : List Char), charsLe a b = true → charsLe b a = true →
    a = b := by
  intro a
  induction a with
  | nil =>
    intro b _ hba
    cases b with
    | nil => rfl
    | cons y ys => simp [charsLe] at hba
  | cons x xs ih =>
    intro b hab hba
    cases b with
    | nil => simp [charsLe] at hab
    | cons y ys =>
      by_cases hxy : x = y
      · subst hxy
        simp only [charsLe, if_pos rfl] at hab hba
        rw [ih ys hab hba]
      · simp only [charsLe, if_neg hxy, if_neg (Ne.symm hxy), decide_eq_true_eq] at hab hba
        omega

theorem string_eq_of_data_eq {a b : String} (h : a.data = b.data) : a = b :=
  congrArg String.mk h

theorem edgeLe_mk (a1 a2 : Nat) (a3 : String) (a4 : Int) (b1 b2 : Nat) (b3 : String) (b4 : Int) :
    edgeLe (a1, a2, a3, a4) (b1, b2, b3, b4) ↔
      (if a1 = b1 then
        if a2 = b2 then
          if a3 = b3 then a4 ≤ b4 else charsLe a3.data b3.data = true
        else a2 < b2
      else a1 < b1) := by
  unfold edgeLe edgeLeB
  by_cases h1 : a1 = b1 <;> by_cases h2 : a2 = b2 <;> by_cases h3 : a3 = b3 <;>
    simp [h1, h2, h3]

instance : IsTotal Edge edgeLe := by
  constructor
  intro a b
  obtain ⟨a1, a2, a3, a4⟩ := a
  obtain ⟨b1, b2, b3, b4⟩ := b
  rw [edgeLe_mk, edgeLe_mk]
  split_ifs <;>
    first
      | omega
      | (exact charsLe_total _ _)
      | simp_all

instance : IsTrans Edge edgeLe := by
  constructor
  intro a b c hab hbc
  obtain ⟨a1, a2, a3, a4⟩ := a
  obtain ⟨b1, b2, b3, b4⟩ := b
  obtain ⟨c1, c2, c3, c4⟩ := c
  rw [edgeLe_mk] at hab hbc ⊢
  split_ifs at hab hbc ⊢ <;> subst_eqs <;>
    first
      | omega
      | (exfalso; omega)
      | assumption
      | simp_all
      | (exact charsLe_trans _ _ _ hab hbc)
      | (exact absurd (string_eq_of_data_eq (charsLe_antisymm _ _ hab hbc)) (by assumption))

instance : IsAntisymm Edge edgeLe := by
  constructor
  intro a b hab hba
  obtain ⟨a1, a2, a3, a4⟩ := a
  obtain ⟨b1, b2, b3, b4⟩ := b
  rw [edgeLe_mk] at hab hba
  split_ifs at hab hba <;> subst_eqs <;>
    first
      | omega
      | (exfalso; omega)
      | (simp only [Prod.mk.injEq, and_true, true_and]; omega)
      | (exact absurd (string_eq_of_data_eq (charsLe_antisymm _ _ hab hba)) (by assumption))
      | simp_all

/-! Basic preservation properties of one walk, valid for every fuel. -/

theorem nodup_append_singleton {α : Type _} {l : List α} {a : α} (h : a ∉ l)
    (hl : l.Nodup) : (l ++ [a]).Nodup := by
  simp only [List.nodup_append, List.nodup_cons, List.not_mem_nil, not_false_iff,
    List.nodup_nil, and_true, true_and]
  exact ⟨hl, fun b hb hb' => h (by simp_all [List.mem_singleton])⟩

/-- Invariants any single call of the walk preserves, whatever the fuel:
previously discovered entities stay, edges are only appended (never removed),
every appended edge is a candidate from `edgeUniverse`, the edge list stays
duplicate-free, and discovered entities belong to the entity graph. -/
def WalkStep1 (g : EntityGraph) (U : List Edge) (s s' : GraphState) : Prop :=
  (∀ a ∈ s.traceables, a ∈ s'.traceables) ∧
  (∃ app, s'.rels = s.rels ++ app ∧ ∀ e ∈ app, e ∈ U) ∧
  (s.rels.Nodup → s'.rels.Nodup) ∧
  ((∀ a ∈ s.traceables, a ∈ g.entities) → ∀ a ∈ s'.traceables, a ∈ g.entities)

theorem walkStep1_refl (g : EntityGraph) (U : List Edge) (s : GraphState) :
    WalkStep1 g U s s :=
  ⟨fun _ h => h, ⟨[], by simp, by simp⟩, id, fun h => h⟩

theorem walkStep1_trans {g : EntityGraph} {U : List Edge} {s s₁ s₂ : GraphState}
    (h1 : WalkStep1 g U s s₁) (h2 : WalkStep1 g U s₁ s₂) : WalkStep1 g U s s₂ := by
  obtain ⟨m1, ⟨a1, e1, u1⟩, n1, g1⟩ := h1
  obtain ⟨m2, ⟨a2, e2, u2⟩, n2, g2⟩ := h2
  refine ⟨fun a h => m2 a (m1 a h), ⟨a1 ++ a2, ?_, ?_⟩, fun h => n2 (n1 h), fun h => g2 (g1 h)⟩
  · rw [e2, e1, List.append_assoc]
  · intro e he
    rcases List.mem_append.mp he with h | h
    · exact u1 e h
    · exact u2 e h

theorem walkStep1_push {g : EntityGraph} {U : List Edge} {s : GraphState} {e : Edge}
    (hmem : e ∉ s.rels) (hU : e ∈ U) : WalkStep1 g U s (pushEdge s e) := by
  refine ⟨fun a h => h, ⟨[e], rfl, by simp [hU]⟩, fun h => ?_, fun h => h⟩
  exact nodup_append_singleton hmem h

theorem walkStep1_insert {g : EntityGraph} {U : List Edge} {s : GraphState} {t : Nat}
    (ht : t ∈ g.entities) : WalkStep1 g U s (insertTraceable s t) := by
  unfold insertTraceable
  by_cases h : t ∈ s.traceables
  · simp only [if_pos h]
    exact walkStep1_refl g U s
  · simp only [if_neg h]
    refine ⟨fun a ha => List.mem_append_left _ ha, ⟨[], by simp, by simp⟩, id, ?_⟩
    intro hall a ha
    rcases List.mem_append.mp ha with h' | h'
    · exact hall a h'
    · simp only [List.mem_singleton] at h'
      subst h'
      exact ht

theorem insertTraceable_mem (s : GraphState) (t : Nat) :
    t ∈ (insertTraceable s t).traceables := by
  unfold insertTraceable
  by_cases h : t ∈ s.traceables <;> simp [h]

theorem mem_edgeUniverse {st : Storage} {g : EntityGraph} {ps : List (String × Option Int)}
    {t r : Nat} {rel : String} {ml : Option Int} (ht : t ∈ g.entities)
    (hp : (rel, ml) ∈ ps) (hr : r ∈ g.rels t rel) :
    ((t, r, rel, st.get_relationship_direction rel) : Edge) ∈ edgeUniverse st g ps := by
  unfold edgeUniverse
  rw [List.mem_flatMap]
  refine ⟨t, ht, ?_⟩
  rw [List.mem_flatMap]
  exact ⟨(rel, ml), hp, List.mem_map.mpr ⟨r, hr, rfl⟩⟩

theorem walkRels_step1 {st : Storage} {g : EntityGraph} {ps : List (String × Option Int)}
    (Hg : ∀ a rel, ∀ x ∈ g.rels a rel, x ∈ g.entities)
    {w : Nat → Nat → GraphState → GraphState}
    (hw : ∀ r len s, r ∈ g.entities → WalkStep1 g (edgeUniverse st g ps) s (w r len s))
    {t : Nat} {rel : String} {ml : Option Int} (ht : t ∈ g.entities) (hp : (rel, ml) ∈ ps) :
    ∀ (rs : List Nat), (∀ x ∈ rs, x ∈ g.rels t rel) → ∀ (len : Nat) (s : GraphState),
      WalkStep1 g (edgeUniverse st g ps) s
        (walkRels w t len rel (st.get_relationship_direction rel) rs s) := by
  intro rs
  induction rs with
  | nil => intro _ len s; exact walkStep1_refl _ _ _
  | cons r rs ih =>
    intro hrs len s
    simp only [walkRels]
    by_cases hmem : ((t, r, rel, st.get_relationship_direction rel) : Edge) ∈ s.rels
    · simp only [if_pos hmem]
      exact ih (fun x hx => hrs x (List.mem_cons_of_mem _ hx)) len s
    · simp only [if_neg hmem]
      have hr : r ∈ g.rels t rel := hrs r (List.mem_cons_self _ _)
      have hU := @mem_edgeUniverse st g ps _ _ _ _ ht hp hr
      have h1 := @walkStep1_push g _ _ _ hmem hU
      have h2 := hw r (len + 1) (pushEdge s ((t, r, rel, st.get_relationship_direction rel)))
        (Hg t rel r hr)
      exact walkStep1_trans (walkStep1_trans h1 h2)
        (ih (fun x hx => hrs x (List.mem_cons_of_mem _ hx)) len _)

theorem walkPairs_step1 {st : Storage} {g : EntityGraph} {ps : List (String × Option Int)}
    (Hg : ∀ a rel, ∀ x ∈ g.rels a rel, x ∈ g.entities)
    {w : Nat → Nat → GraphState → GraphState}
    (hw : ∀ r len s, r ∈ g.entities → WalkStep1 g (edgeUniverse st g ps) s (w r len s))
    {t : Nat} (ht : t ∈ g.entities) :
    ∀ (psfx : List (String × Option Int)), (∀ p ∈ psfx, p ∈ ps) →
      ∀ (len : Nat) (s : GraphState),
      WalkStep1 g (edgeUniverse st g ps) s (walkPairs st g w t len psfx s) := by
  intro psfx
  induction psfx with
  | nil => intro _ len s; exact walkStep1_refl _ _ _
  | cons p rest ih =>
    intro hsub len s
    obtain ⟨rel, ml⟩ := p
    simp only [walkPairs]
    by_cases hguard : pyGuard ml len = true
    · simp only [if_pos hguard]
      exact ih (fun q hq => hsub q (List.mem_cons_of_mem _ hq)) len s
    · simp only [if_neg hguard]
      have h1 := walkRels_step1 Hg hw ht (hsub (rel, ml) (List.mem_cons_self _ _))
        (g.rels t rel) (fun x hx => hx) len s
      exact walkStep1_trans h1 (ih (fun q hq => hsub q (List.mem_cons_of_mem _ hq)) len _)

/-- Every call of the walk—at any fuel—only grows the discovered sets, only
appends candidate edges, and keeps the edge list duplicate-free. -/
theorem walk_step1 {st : Storage} {g : EntityGraph} {ps : List (String × Option Int)}
    (Hg : ∀ a rel, ∀ x ∈ g.rels a rel, x ∈ g.entities) :
    ∀ (fuel : Nat) (t : Nat) (len : Nat) (s : GraphState), t ∈ g.entities →
      WalkStep1 g (edgeUniverse st g ps) s (walkTraceable st g ps fuel t len s) := by
  intro fuel
  induction fuel with
  | zero => intro t len s _; exact walkStep1_refl _ _ _
  | succ fuel ih =>
    intro t len s ht
    simp only [walkTraceable]
    have h1 := @walkStep1_insert g (edgeUniverse st g ps) s t ht
    have h2 := walkPairs_step1 Hg (fun r len' s' hr => ih r len' s' hr) ht ps
      (fun q hq => hq) len (insertTraceable s t)
    exact walkStep1_trans h1 h2

/-! Properties of the direction-canonicalization pass. -/

theorem canonPass_nodup (st : Storage) :
    ∀ (snap rels : List Edge), rels.Nodup → (canonPass st snap rels).Nodup := by
  intro snap
  induction snap with
  | nil => intro rels h; exact h
  | cons info rest ih =>
    intro rels h
    simp only [canonPass]
    by_cases hdir : info.2.2.2 = -1
    · simp only [if_pos hdir]
      have hrem : (rels.erase info).Nodup := h.erase info
      by_cases hrev : (info.2.1, info.1, st.get_relationship_opposite info.2.2.1, 1) ∈ rels.erase info
      · simp only [if_pos hrev]
        exact ih _ hrem
      · simp only [if_neg hrev]
        exact ih _ (nodup_append_singleton hrev hrem)
    · simp only [if_neg hdir]
      exact ih rels h

theorem canonPass_forward (st : Storage) :
    ∀ (snap rels : List Edge), rels.Nodup →
      (∀ e ∈ rels, e.2.2.2 = 1 ∨ e.2.2.2 = -1) →
      (∀ e ∈ rels, e.2.2.2 = -1 → e ∈ snap) →
      ∀ e ∈ canonPass st snap rels, e.2.2.2 = 1 := by
  intro snap
  induction snap with
  | nil =>
    intro rels _ hdirs hneg e he
    rcases hdirs e he with h | h
    · exact h
    · exact absurd (hneg e he h) (List.not_mem_nil e)
  | cons info rest ih =>
    intro rels hnd hdirs hneg
    simp only [canonPass]
    by_cases hdir : info.2.2.2 = -1
    · simp only [if_pos hdir]
      set rev : Edge := (info.2.1, info.1, st.get_relationship_opposite info.2.2.1, 1) with hrevdef
      have hrevdir : rev.2.2.2 = 1 := rfl
      have hrem : (rels.erase info).Nodup := hnd.erase info
      have herase_sub : ∀ x ∈ rels.erase info, x ∈ rels := fun x hx => List.erase_subset _ _ hx
      have hstep : ∀ rels', rels'.Nodup → (∀ e ∈ rels', e ∈ rels.erase info ∨ e = rev) →
          ∀ e ∈ canonPass st rest rels', e.2.2.2 = 1 := by
        intro rels' hnd' hsub'
        refine ih rels' hnd' ?_ ?_
        · intro e he
          rcases hsub' e he with h | h
          · exact hdirs e (herase_sub e h)
          · subst h; left; exact hrevdir
        · intro e he hneg'
          rcases hsub' e he with h | h
          · have : e ∈ info :: rest := hneg e (herase_sub e h) hneg'
            rcases List.mem_cons.mp this with h' | h'
            · exact absurd ((hnd.mem_erase_iff).mp h).1 (by simp [h'])
            · exact h'
          · subst h; simp [hrevdef] at hneg'
      by_cases hrev : rev ∈ rels.erase info
      · simp only [if_pos hrev]
        exact hstep _ hrem (fun e he => Or.inl he)
      · simp only [if_neg hrev]
        refine hstep _ (nodup_append_singleton hrev hrem) ?_
        intro e he
        rcases List.mem_append.mp he with h | h
        · exact Or.inl h
        · simp only [List.mem_singleton] at h
          exact Or.inr h
    · simp only [if_neg hdir]
      refine ih rels hnd hdirs ?_
      intro e he hneg'
      have : e ∈ info :: rest := hneg e he hneg'
      rcases List.mem_cons.mp this with h' | h'
      · subst h'; exact absurd hneg' hdir
      · exact h'

theorem canonPass_keeps_pos (st : Storage) :
    ∀ (snap rels : List Edge) (e : Edge), e ∈ rels → e.2.2.2 = 1 →
      e ∈ canonPass st snap rels := by
  intro snap
  induction snap with
  | nil => intro rels e he _; exact he
  | cons info rest ih =>
    intro rels e he hpos
    simp only [canonPass]
    by_cases hdir : info.2.2.2 = -1
    · simp only [if_pos hdir]
      have hne : e ≠ info := by
        intro h
        subst h
        rw [hpos] at hdir
        exact absurd hdir (by decide)
      have he' : e ∈ rels.erase info := (List.mem_erase_of_ne hne).mpr he
      by_cases hrev : (info.2.1, info.1, st.get_relationship_opposite info.2.2.1, 1) ∈ rels.erase info
      · simp only [if_pos hrev]
        exact ih _ e he' hpos
      · simp only [if_neg hrev]
        exact ih _ e (List.mem_append_left _ he') hpos
    · simp only [if_neg hdir]
      exact ih rels e he hpos

theorem canonPass_rev_mem (st : Storage) :
    ∀ (snap rels : List Edge) (info : Edge), snap.Nodup → info ∈ snap → info ∈ rels →
      info.2.2.2 = -1 →
      (info.2.1, info.1, st.get_relationship_opposite info.2.2.1, 1) ∈ canonPass st snap rels := by
  intro snap
  induction snap with
  | nil => intro rels info _ h; exact absurd h (List.not_mem_nil info)
  | cons info0 rest ih =>
    intro rels info hnd hsnap hrels hneg
    simp only [canonPass]
    rcases List.mem_cons.mp hsnap with heq | hrest
    · subst heq
      simp only [if_pos hneg]
      set rev : Edge := (info.2.1, info.1, st.get_relationship_opposite info.2.2.1, 1) with hrevdef
      by_cases hrev : rev ∈ rels.erase info
      · simp only [if_pos hrev]
        exact canonPass_keeps_pos st rest _ rev hrev rfl
      · simp only [if_neg hrev]
        exact canonPass_keeps_pos st rest _ rev (List.mem_append_right _ (by simp)) rfl
    · have hne : info ≠ info0 := by
        intro h
        subst h
        exact (List.nodup_cons.mp hnd).1 hrest
      by_cases hdir : info0.2.2.2 = -1
      · simp only [if_pos hdir]
        have he' : info ∈ rels.erase info0 := (List.mem_erase_of_ne hne).mpr hrels
        by_cases hrev : (info0.2.1, info0.1, st.get_relationship_opposite info0.2.2.1, 1) ∈ rels.erase info0
        · simp only [if_pos hrev]
          exact ih _ info (List.nodup_cons.mp hnd).2 hrest he' hneg
        · simp only [if_neg hrev]
          exact ih _ info (List.nodup_cons.mp hnd).2 hrest (List.mem_append_left _ he') hneg
      · simp only [if_neg hdir]
        exact ih rels info (List.nodup_cons.mp hnd).2 hrest hrels hneg

theorem canonPass_endpoints (st : Storage) (P : Nat → Prop) :
    ∀ (snap rels : List Edge), (∀ e ∈ snap, P e.1 ∧ P e.2.1) →
      (∀ e ∈ rels, P e.1 ∧ P e.2.1) →
      ∀ e ∈ canonPass st snap rels, P e.1 ∧ P e.2.1 := by
  intro snap
  induction snap with
  | nil => intro rels _ h; exact h
  | cons info rest ih =>
    intro rels hsnap hrels
    simp only [canonPass]
    have hsnap' : ∀ e ∈ rest, P e.1 ∧ P e.2.1 := fun e he =>
      hsnap e (List.mem_cons_of_mem _ he)
    by_cases hdir : info.2.2.2 = -1
    · simp only [if_pos hdir]
      have hinfo := hsnap info (List.mem_cons_self _ _)
      have hrem : ∀ e ∈ rels.erase info, P e.1 ∧ P e.2.1 := fun e he =>
        hrels e (List.erase_subset _ _ he)
      by_cases hrev : (info.2.1, info.1, st.get_relationship_opposite info.2.2.1, 1) ∈ rels.erase info
      · simp only [if_pos hrev]
        exact ih _ hsnap' hrem
      · simp only [if_neg hrev]
        refine ih _ hsnap' ?_
        intro e he
        rcases List.mem_append.mp he with h | h
        · exact hrem e h
        · simp only [List.mem_singleton] at h
          subst h
          exact ⟨hinfo.2, hinfo.1⟩
    · simp only [if_neg hdir]
      exact ih rels hsnap' hrels

/-! Machinery for the sufficient-fuel argument: with fuel exceeding the
number of candidate oriented edges, every recursive call of the walk runs to
completion, so the endpoints of every recorded edge are themselves
discovered and every discovered entity has had all its relationship specs
processed. -/

/-- Both endpoints of every recorded edge have been discovered. -/
def endpointsIn (s : GraphState) : Prop :=
  ∀ e ∈ s.rels, e.1 ∈ s.traceables ∧ e.2.1 ∈ s.traceables

/-- Both endpoints of every recorded edge have been discovered, except that
the entity `r` (about to be inserted by the pending call) may stand in. -/
def endpointsInWith (s : GraphState) (r : Nat) : Prop :=
  ∀ e ∈ s.rels, (e.1 ∈ s.traceables ∨ e.1 = r) ∧ (e.2.1 ∈ s.traceables ∨ e.2.1 = r)

/-- Entity `a` has been fully processed: every relative reachable from it
via a listed relationship type has been discovered. -/
def processedIn (g : EntityGraph) (types : List String) (s : GraphState) (a : Nat) : Prop :=
  ∀ rel ∈ types, ∀ b ∈ g.rels a rel, b ∈ s.traceables

/-- Number of recorded edges that are candidates from `U`; each recursive
call of the walk records one more, which bounds the recursion depth. -/
def countU (U : List Edge) (s : GraphState) : Nat :=
  (s.rels.filter (fun e => decide (e ∈ U))).length

theorem countU_le {U : List Edge} {s : GraphState} (h : s.rels.Nodup) :
    countU U s ≤ U.length := by
  have hsub : (s.rels.filter (fun e => decide (e ∈ U))).Sublist s.rels :=
    List.filter_sublist s.rels
  have hnd : (s.rels.filter (fun e => decide (e ∈ U))).Nodup := hsub.nodup h
  have hmem : ∀ e ∈ s.rels.filter (fun e => decide (e ∈ U)), e ∈ U := by
    intro e he
    have := List.of_mem_filter he
    exact of_decide_eq_true this
  exact (hnd.subperm hmem).length_le

theorem countU_push {U : List Edge} {s : GraphState} {e : Edge} (he : e ∈ U) :
    countU U (pushEdge s e) = countU U s + 1 := by
  unfold countU pushEdge
  simp [List.filter_append, he]

theorem countU_append_le {U : List Edge} {s s' : GraphState} {app : List Edge}
    (h : s'.rels = s.rels ++ app) : countU U s ≤ countU U s' := by
  unfold countU
  rw [h, List.filter_append, List.length_append]
  omega

theorem processedIn_mono {g : EntityGraph} {types : List String} {s s' : GraphState}
    (hmono : ∀ a ∈ s.traceables, a ∈ s'.traceables) {a : Nat}
    (h : processedIn g types s a) : processedIn g types s' a :=
  fun rel hrel b hb => hmono b (h rel hrel b hb)

/-- Complete conclusion of one fully-fuelled call of the walk on entity `r`. -/
def WalkDone (g : EntityGraph) (types : List String) (U : List Edge) (r : Nat)
    (s s' : GraphState) : Prop :=
  (∀ a ∈ s.traceables, a ∈ s'.traceables) ∧
  (∃ app, s'.rels = s.rels ++ app ∧ ∀ e ∈ app, e ∈ U) ∧
  s'.rels.Nodup ∧
  endpointsIn s' ∧
  (∀ a ∈ s'.traceables, a ∈ g.entities) ∧
  r ∈ s'.traceables ∧
  (∀ a ∈ s'.traceables, a ∈ s.traceables ∨ processedIn g types s' a)

/-- Specification of the recursive walk at fuel `f`, with enough fuel left
relative to the candidate edges not yet recorded. -/
def WSpec2 (g : EntityGraph) (types : List String) (U : List Edge) (f : Nat)
    (w : Nat → Nat → GraphState → GraphState) : Prop :=
  ∀ r len s, r ∈ g.entities → s.rels.Nodup → endpointsInWith s r →
    (∀ a ∈ s.traceables, a ∈ g.entities) →
    U.length + 1 ≤ f + countU U s →
    WalkDone g types U r s (w r len s)

theorem insertTraceable_rels (s : GraphState) (t : Nat) :
    (insertTraceable s t).rels = s.rels := by
  unfold insertTraceable
  split <;> rfl

theorem insertTraceable_mono (s : GraphState) (t : Nat) :
    ∀ a ∈ s.traceables, a ∈ (insertTraceable s t).traceables := by
  intro a ha
  unfold insertTraceable
  split
  · exact ha
  · exact List.mem_append_left _ ha

theorem insertTraceable_mem_iff (s : GraphState) (t a : Nat) :
    a ∈ (insertTraceable s t).traceables ↔ a ∈ s.traceables ∨ a = t := by
  unfold insertTraceable
  by_cases h : t ∈ s.traceables
  · simp only [if_pos h]
    constructor
    · exact Or.inl
    · rintro (ha | ha)
      · exact ha
      · subst ha; exact h
  · simp only [if_neg h, List.mem_append, List.mem_singleton]

/-- Conclusion of one inner loop of the fully-fuelled walk. -/
def LoopDone (g : EntityGraph) (types : List String) (U : List Edge)
    (s s' : GraphState) : Prop :=
  (∀ a ∈ s.traceables, a ∈ s'.traceables) ∧
  (∃ app, s'.rels = s.rels ++ app ∧ ∀ e ∈ app, e ∈ U) ∧
  s'.rels.Nodup ∧
  endpointsIn s' ∧
  (∀ a ∈ s'.traceables, a ∈ g.entities) ∧
  (∀ a ∈ s'.traceables, a ∈ s.traceables ∨ processedIn g types s' a)

theorem loopDone_refl {g : EntityGraph} {types : List String} {U : List Edge}
    {s : GraphState} (hnd : s.rels.Nodup) (hend : endpointsIn s)
    (hent : ∀ a ∈ s.traceables, a ∈ g.entities) : LoopDone g types U s s :=
  ⟨fun _ h => h, ⟨[], by simp, by simp⟩, hnd, hend, hent, fun _ h => Or.inl h⟩

theorem loopDone_trans {g : EntityGraph} {types : List String} {U : List Edge}
    {s s₁ s₂ : GraphState} (h1 : LoopDone g types U s s₁)
    (h2 : LoopDone g types U s₁ s₂) : LoopDone g types U s s₂ := by
  obtain ⟨m1, ⟨a1, e1, u1⟩, _, _, _, np1⟩ := h1
  obtain ⟨m2, ⟨a2, e2, u2⟩, nd2, end2, ent2, np2⟩ := h2
  refine ⟨fun a h => m2 a (m1 a h), ⟨a1 ++ a2, ?_, ?_⟩, nd2, end2, ent2, ?_⟩
  · rw [e2, e1, List.append_assoc]
  · intro e he
    rcases List.mem_append.mp he with h | h
    · exact u1 e h
    · exact u2 e h
  · intro a ha
    rcases np2 a ha with h | h
    · rcases np1 a h with h' | h'
      · exact Or.inl h'
      · exact Or.inr (processedIn_mono m2 h')
    · exact Or.inr h

theorem walkRels_sufficient {st : Storage} {g : EntityGraph}
    {ps : List (String × Option Int)}
    (Hg : ∀ a rel, ∀ x ∈ g.rels a rel, x ∈ g.entities)
    {f : Nat} {w : Nat → Nat → GraphState → GraphState}
    (hw : WSpec2 g (ps.map Prod.fst) (edgeUniverse st g ps) f w)
    {t : Nat} {rel : String} {ml : Option Int} (hp : (rel, ml) ∈ ps) (ht : t ∈ g.entities) :
    ∀ (rs : List Nat), (∀ x ∈ rs, x ∈ g.rels t rel) → ∀ (len : Nat) (s : GraphState),
      t ∈ s.traceables → s.rels.Nodup → endpointsIn s →
      (∀ a ∈ s.traceables, a ∈ g.entities) →
      (edgeUniverse st g ps).length + 1 ≤ f + countU (edgeUniverse st g ps) s + 1 →
      LoopDone g (ps.map Prod.fst) (edgeUniverse st g ps) s
          (walkRels w t len rel (st.get_relationship_direction rel) rs s) ∧
        ∀ b ∈ rs, b ∈ (walkRels w t len rel (st.get_relationship_direction rel) rs s).traceables := by
  intro rs
  induction rs with
  | nil =>
    intro _ len s _ hnd hend hent _
    exact ⟨loopDone_refl hnd hend hent, by simp⟩
  | cons r rs ih =>
    intro hrs len s htin hnd hend hent hineq
    have hr : r ∈ g.rels t rel := hrs r (List.mem_cons_self _ _)
    have hrs' : ∀ x ∈ rs, x ∈ g.rels t rel := fun x hx => hrs x (List.mem_cons_of_mem _ hx)
    simp only [walkRels]
    by_cases hmem : ((t, r, rel, st.get_relationship_direction rel) : Edge) ∈ s.rels
    · simp only [if_pos hmem]
      have hrin : r ∈ s.traceables := (hend _ hmem).2
      obtain ⟨ld, hmem2⟩ := ih hrs' len s htin hnd hend hent hineq
      refine ⟨ld, ?_⟩
      intro b hb
      rcases List.mem_cons.mp hb with h | h
      · subst h; exact ld.1 b hrin
      · exact hmem2 b h
    · simp only [if_neg hmem]
      have hU := @mem_edgeUniverse st g ps _ _ _ _ ht hp hr
      set e : Edge := (t, r, rel, st.get_relationship_direction rel) with hedef
      set sp := pushEdge s e with hspdef
      have hsp_rels : sp.rels = s.rels ++ [e] := rfl
      have hsp_tr : sp.traceables = s.traceables := rfl
      have hnd_sp : sp.rels.Nodup := nodup_append_singleton hmem hnd
      have hend_sp : endpointsInWith sp r := by
        intro e' he'
        rw [hsp_rels] at he'
        rcases List.mem_append.mp he' with h | h
        · have := hend e' h
          rw [hsp_tr]
          exact ⟨Or.inl this.1, Or.inl this.2⟩
        · simp only [List.mem_singleton] at h
          subst h
          rw [hsp_tr]
          exact ⟨Or.inl htin, Or.inr rfl⟩
      have hent_sp : ∀ a ∈ sp.traceables, a ∈ g.entities := by
        rw [hsp_tr]; exact hent
      have hcount_sp : countU (edgeUniverse st g ps) sp =
          countU (edgeUniverse st g ps) s + 1 := countU_push hU
      have hineq_sp : (edgeUniverse st g ps).length + 1 ≤
          f + countU (edgeUniverse st g ps) sp := by omega
      have h1 := hw r (len + 1) sp (Hg t rel r hr) hnd_sp hend_sp hent_sp hineq_sp
      obtain ⟨m1, ⟨app1, happ1, hU1⟩, nd1, end1, ent1, hrin1, np1⟩ := h1
      set s₁ := w r (len + 1) sp with hs1def
      have htin1 : t ∈ s₁.traceables := m1 t (by rw [hsp_tr]; exact htin)
      have hcount1 : countU (edgeUniverse st g ps) sp ≤ countU (edgeUniverse st g ps) s₁ :=
        countU_append_le happ1
      have hineq1 : (edgeUniverse st g ps).length + 1 ≤
          f + countU (edgeUniverse st g ps) s₁ + 1 := by omega
      obtain ⟨ld2, hmem2⟩ := ih hrs' len s₁ htin1 nd1 end1 ent1 hineq1
      have ld1 : LoopDone g (ps.map Prod.fst) (edgeUniverse st g ps) s s₁ := by
        refine ⟨fun a ha => m1 a (by rw [hsp_tr]; exact ha), ⟨e :: app1, ?_, ?_⟩, nd1, end1, ent1, ?_⟩
        · rw [happ1, hsp_rels]
          simp
        · intro x hx
          rcases List.mem_cons.mp hx with h | h
          · subst h; exact hU
          · exact hU1 x h
        · intro a ha
          rcases np1 a ha with h | h
          · rw [hsp_tr] at h
            exact Or.inl h
          · exact Or.inr h
      refine ⟨loopDone_trans ld1 ld2, ?_⟩
      intro b hb
      rcases List.mem_cons.mp hb with h | h
      · subst h; exact ld2.1 b hrin1
      · exact hmem2 b h

theorem walkPairs_sufficient {st : Storage} {g : EntityGraph}
    {ps : List (String × Option Int)}
    (Hg : ∀ a rel, ∀ x ∈ g.rels a rel, x ∈ g.entities)
    {f : Nat} {w : Nat → Nat → GraphState → GraphState}
    (hw : WSpec2 g (ps.map Prod.fst) (edgeUniverse st g ps) f w)
    {t : Nat} (ht : t ∈ g.entities) :
    ∀ (psfx : List (String × Option Int)), (∀ p ∈ psfx, p ∈ ps) →
      ∀ (len : Nat) (s : GraphState),
      t ∈ s.traceables → s.rels.Nodup → endpointsIn s →
      (∀ a ∈ s.traceables, a ∈ g.entities) →
      (edgeUniverse st g ps).length + 1 ≤ f + countU (edgeUniverse st g ps) s + 1 →
      LoopDone g (ps.map Prod.fst) (edgeUniverse st g ps) s (walkPairs st g w t len psfx s) ∧
        ∀ p ∈ psfx, pyGuard p.2 len = false →
          ∀ b ∈ g.rels t p.1, b ∈ (walkPairs st g w t len psfx s).traceables := by
  intro psfx
  induction psfx with
  | nil =>
    intro _ len s _ hnd hend hent _
    exact ⟨loopDone_refl hnd hend hent, by simp⟩
  | cons p rest ih =>
    intro hsub len s htin hnd hend hent hineq
    obtain ⟨rel, ml⟩ := p
    have hsub' : ∀ q ∈ rest, q ∈ ps := fun q hq => hsub q (List.mem_cons_of_mem _ hq)
    simp only [walkPairs]
    by_cases hguard : pyGuard ml len = true
    · simp only [if_pos hguard]
      obtain ⟨ld, hproc⟩ := ih hsub' len s htin hnd hend hent hineq
      refine ⟨ld, ?_⟩
      intro q hq hqguard
      rcases List.mem_cons.mp hq with h | h
      · exfalso
        subst h
        rw [hqguard] at hguard
        exact Bool.false_ne_true hguard
      · exact hproc q h hqguard
    · simp only [if_neg hguard]
      obtain ⟨ld1, hmem1⟩ := walkRels_sufficient Hg hw (hsub (rel, ml) (List.mem_cons_self _ _))
        ht (g.rels t rel) (fun x hx => hx) len s htin hnd hend hent hineq
      set s₁ := walkRels w t len rel (st.get_relationship_direction rel) (g.rels t rel) s
        with hs1def
      obtain ⟨hm1, ⟨app1, happ1, hUapp1⟩, nd1, end1, ent1, hnp1⟩ := ld1
      have ld1' : LoopDone g (ps.map Prod.fst) (edgeUniverse st g ps) s s₁ :=
        ⟨hm1, ⟨app1, happ1, hUapp1⟩, nd1, end1, ent1, hnp1⟩
      have htin1 : t ∈ s₁.traceables := hm1 t htin
      have hineq1 : (edgeUniverse st g ps).length + 1 ≤
          f + countU (edgeUniverse st g ps) s₁ + 1 := by
        have := @countU_append_le (edgeUniverse st g ps) _ _ _ happ1
        omega
      obtain ⟨ld2, hproc2⟩ := ih hsub' len s₁ htin1 nd1 end1 ent1 hineq1
      refine ⟨loopDone_trans ld1' ld2, ?_⟩
      intro q hq hqguard
      rcases List.mem_cons.mp hq with h | h
      · subst h
        intro b hb
        exact ld2.1 b (hmem1 b hb)
      · exact hproc2 q h hqguard

/-- With enough fuel relative to the not-yet-recorded candidate edges, one
call of the walk runs to completion: it discovers its root, the endpoints of
every recorded edge are discovered, and every newly discovered entity has
been fully processed (when no spec carries a depth limit). -/
theorem walk_sufficient {st : Storage} {g : EntityGraph}
    {ps : List (String × Option Int)}
    (Hg : ∀ a rel, ∀ x ∈ g.rels a rel, x ∈ g.entities)
    (Hnone : ∀ p ∈ ps, p.2 = (none : Option Int)) :
    ∀ f : Nat, WSpec2 g (ps.map Prod.fst) (edgeUniverse st g ps) f (walkTraceable st g ps f) := by
  intro f
  induction f with
  | zero =>
    intro r len s _ hnd _ _ hineq
    exfalso
    have := @countU_le (edgeUniverse st g ps) s hnd
    omega
  | succ f ih =>
    intro r len s hr hnd hend hent hineq
    simp only [walkTraceable]
    set s0 := insertTraceable s r with hs0def
    have hs0_rels : s0.rels = s.rels := insertTraceable_rels s r
    have hrin0 : r ∈ s0.traceables := insertTraceable_mem s r
    have hnd0 : s0.rels.Nodup := by rw [hs0_rels]; exact hnd
    have hend0 : endpointsIn s0 := by
      intro e he
      rw [hs0_rels] at he
      have := hend e he
      constructor
      · rcases this.1 with h | h
        · exact insertTraceable_mono s r _ h
        · rw [h]; exact hrin0
      · rcases this.2 with h | h
        · exact insertTraceable_mono s r _ h
        · rw [h]; exact hrin0
    have hent0 : ∀ a ∈ s0.traceables, a ∈ g.entities := by
      intro a ha
      rcases (insertTraceable_mem_iff s r a).mp ha with h | h
      · exact hent a h
      · rw [h]; exact hr
    have hcount0 : countU (edgeUniverse st g ps) s0 = countU (edgeUniverse st g ps) s := by
      unfold countU
      rw [hs0_rels]
    have hineq0 : (edgeUniverse st g ps).length + 1 ≤
        f + countU (edgeUniverse st g ps) s0 + 1 := by omega
    obtain ⟨ld, hproc⟩ := walkPairs_sufficient Hg ih hr ps (fun q hq => hq) len s0
      hrin0 hnd0 hend0 hent0 hineq0
    obtain ⟨mono1, ⟨app1, happ1, hU1⟩, nd1, end1, ent1, np1⟩ := ld
    refine ⟨fun a ha => mono1 a (insertTraceable_mono s r a ha),
      ⟨app1, by rw [happ1, hs0_rels], hU1⟩, nd1, end1, ent1, mono1 r hrin0, ?_⟩
    intro a ha
    rcases np1 a ha with h | h
    · rcases (insertTraceable_mem_iff s r a).mp h with h' | h'
      · exact Or.inl h'
      · subst h'
        right
        intro rel hrel b hb
        rw [List.mem_map] at hrel
        obtain ⟨⟨rel', ml⟩, hpmem, heq⟩ := hrel
        simp only at heq
        subst heq
        have hmlnone : ml = none := Hnone (rel', ml) hpmem
        subst hmlnone
        exact hproc (rel', none) hpmem rfl b hb
    · exact Or.inr h

/-! Soundness: every discovered entity satisfies any predicate that holds of
the walk roots and is closed under one traversal step. -/

theorem walkRels_sound {st : Storage} {g : EntityGraph} {ps : List (String × Option Int)}
    {P : Nat → Prop}
    (Hstep : ∀ a b rel ml, (rel, ml) ∈ ps → P a → b ∈ g.rels a rel → P b)
    {w : Nat → Nat → GraphState → GraphState}
    (hw : ∀ r len s, P r → (∀ a ∈ s.traceables, P a) → ∀ a ∈ (w r len s).traceables, P a)
    {t : Nat} {rel : String} {ml : Option Int} (hp : (rel, ml) ∈ ps) (hPt : P t) :
    ∀ (rs : List Nat), (∀ x ∈ rs, x ∈ g.rels t rel) → ∀ (len : Nat) (s : GraphState),
      (∀ a ∈ s.traceables, P a) →
      ∀ a ∈ (walkRels w t len rel (st.get_relationship_direction rel) rs s).traceables, P a := by
  intro rs
  induction rs with
  | nil => intro _ len s h; exact h
  | cons r rs ih =>
    intro hrs len s hall
    have hr : r ∈ g.rels t rel := hrs r (List.mem_cons_self _ _)
    have hrs' : ∀ x ∈ rs, x ∈ g.rels t rel := fun x hx => hrs x (List.mem_cons_of_mem _ hx)
    simp only [walkRels]
    by_cases hmem : ((t, r, rel, st.get_relationship_direction rel) : Edge) ∈ s.rels
    · simp only [if_pos hmem]
      exact ih hrs' len s hall
    · simp only [if_neg hmem]
      have hPr : P r := Hstep t r rel ml hp hPt hr
      have h1 := hw r (len + 1) (pushEdge s ((t, r, rel, st.get_relationship_direction rel)))
        hPr hall
      exact ih hrs' len _ h1

theorem walkPairs_sound {st : Storage} {g : EntityGraph} {ps : List (String × Option Int)}
    {P : Nat → Prop}
    (Hstep : ∀ a b rel ml, (rel, ml) ∈ ps → P a → b ∈ g.rels a rel → P b)
    {w : Nat → Nat → GraphState → GraphState}
    (hw : ∀ r len s, P r → (∀ a ∈ s.traceables, P a) → ∀ a ∈ (w r len s).traceables, P a)
    {t : Nat} (hPt : P t) :
    ∀ (psfx : List (String × Option Int)), (∀ p ∈ psfx, p ∈ ps) →
      ∀ (len : Nat) (s : GraphState), (∀ a ∈ s.traceables, P a) →
      ∀ a ∈ (walkPairs st g w t len psfx s).traceables, P a := by
  intro psfx
  induction psfx with
  | nil => intro _ len s h; exact h
  | cons p rest ih =>
    intro hsub len s hall
    obtain ⟨rel, ml⟩ := p
    have hsub' : ∀ q ∈ rest, q ∈ ps := fun q hq => hsub q (List.mem_cons_of_mem _ hq)
    simp only [walkPairs]
    by_cases hguard : pyGuard ml len = true
    · simp only [if_pos hguard]
      exact ih hsub' len s hall
    · simp only [if_neg hguard]
      have h1 := @walkRels_sound st g ps P Hstep w hw t rel ml
        (hsub (rel, ml) (List.mem_cons_self _ _))
        hPt (g.rels t rel) (fun x hx => hx) len s hall
      exact ih hsub' len _ h1

theorem walk_sound {st : Storage} {g : EntityGraph} {ps : List (String × Option Int)}
    {P : Nat → Prop}
    (Hstep : ∀ a b rel ml, (rel, ml) ∈ ps → P a → b ∈ g.rels a rel → P b) :
    ∀ (fuel : Nat) (r : Nat) (len : Nat) (s : GraphState), P r →
      (∀ a ∈ s.traceables, P a) →
      ∀ a ∈ (walkTraceable st g ps fuel r len s).traceables, P a := by
  intro fuel
  induction fuel with
  | zero => intro r len s _ h; exact h
  | succ fuel ih =>
    intro r len s hPr hall
    simp only [walkTraceable]
    have hall0 : ∀ a ∈ (insertTraceable s r).traceables, P a := by
      intro a ha
      rcases (insertTraceable_mem_iff s r a).mp ha with h | h
      · exact hall a h
      · rw [h]; exact hPr
    exact walkPairs_sound Hstep (fun r' len' s' h1 h2 => ih r' len' s' h1 h2) hPr ps
      (fun q hq => hq) len (insertTraceable s r) hall0

/-! Behaviour of a complete `add_traceable_walk` and of the whole
construction with respect to discovered entities. -/

theorem add_traceable_walk_traceables (st : Storage) (g : EntityGraph)
    (ps : List (String × Option Int)) (fuel t : Nat) (s : GraphState) :
    (add_traceable_walk st g ps fuel t s).traceables =
      (walkTraceable st g ps fuel t 0 s).traceables := rfl

/-- Invariants one complete `add_traceable_walk` establishes, given enough
fuel and depth-unlimited specs. -/
theorem add_walk_sufficient {st : Storage} {g : EntityGraph}
    {ps : List (String × Option Int)}
    (Hg : ∀ a rel, ∀ x ∈ g.rels a rel, x ∈ g.entities)
    (Hnone : ∀ p ∈ ps, p.2 = (none : Option Int))
    {fuel : Nat} (hfuel : (edgeUniverse st g ps).length + 1 ≤ fuel)
    {t : Nat} (ht : t ∈ g.entities) {s : GraphState}
    (hnd : s.rels.Nodup) (hend : endpointsIn s)
    (hent : ∀ a ∈ s.traceables, a ∈ g.entities) :
    (∀ a ∈ s.traceables, a ∈ (add_traceable_walk st g ps fuel t s).traceables) ∧
    (add_traceable_walk st g ps fuel t s).rels.Nodup ∧
    endpointsIn (add_traceable_walk st g ps fuel t s) ∧
    (∀ a ∈ (add_traceable_walk st g ps fuel t s).traceables, a ∈ g.entities) ∧
    t ∈ (add_traceable_walk st g ps fuel t s).traceables ∧
    (∀ a ∈ (add_traceable_walk st g ps fuel t s).traceables,
      a ∈ s.traceables ∨ processedIn g (ps.map Prod.fst)
        (add_traceable_walk st g ps fuel t s) a) := by
  have hineq : (edgeUniverse st g ps).length + 1 ≤ fuel + countU (edgeUniverse st g ps) s := by
    omega
  have hendw : endpointsInWith s t := fun e he =>
    ⟨Or.inl (hend e he).1, Or.inl (hend e he).2⟩
  obtain ⟨mono1, ⟨app1, happ1, _⟩, nd1, end1, ent1, htin1, np1⟩ :=
    walk_sufficient Hg Hnone fuel t 0 s ht hnd hendw hent hineq
  set s₁ := walkTraceable st g ps fuel t 0 s with hs1def
  have hres_tr : (add_traceable_walk st g ps fuel t s).traceables = s₁.traceables := rfl
  have hres_rels : (add_traceable_walk st g ps fuel t s).rels =
      canonPass st s₁.rels s₁.rels := rfl
  constructor
  · intro a ha
    rw [hres_tr]
    exact mono1 a ha
  constructor
  · rw [hres_rels]
    exact canonPass_nodup st _ _ nd1
  constructor
  · intro e he
    rw [hres_rels] at he
    rw [hres_tr]
    exact canonPass_endpoints st (· ∈ s₁.traceables) s₁.rels s₁.rels end1 end1 e he
  constructor
  · intro a ha
    rw [hres_tr] at ha
    exact ent1 a ha
  constructor
  · rw [hres_tr]
    exact htin1
  · intro a ha
    rw [hres_tr] at ha
    rcases np1 a ha with h | h
    · exact Or.inl h
    · right
      intro rel hrel b hb
      rw [hres_tr]
      exact h rel hrel b hb

/-- Invariants the fold over all start entities establishes. -/
theorem construct_fold_sufficient {st : Storage} {g : EntityGraph}
    {ps : List (String × Option Int)}
    (Hg : ∀ a rel, ∀ x ∈ g.rels a rel, x ∈ g.entities)
    (Hnone : ∀ p ∈ ps, p.2 = (none : Option Int))
    {fuel : Nat} (hfuel : (edgeUniverse st g ps).length + 1 ≤ fuel) :
    ∀ (l : List Nat) (s : GraphState), (∀ x ∈ l, x ∈ g.entities) →
      s.rels.Nodup → endpointsIn s → (∀ a ∈ s.traceables, a ∈ g.entities) →
      (∀ a ∈ s.traceables, a ∈ (l.foldl (fun s' t => add_traceable_walk st g ps fuel t s') s).traceables) ∧
      (l.foldl (fun s' t => add_traceable_walk st g ps fuel t s') s).rels.Nodup ∧
      endpointsIn (l.foldl (fun s' t => add_traceable_walk st g ps fuel t s') s) ∧
      (∀ a ∈ (l.foldl (fun s' t => add_traceable_walk st g ps fuel t s') s).traceables,
        a ∈ g.entities) ∧
      (∀ x ∈ l, x ∈ (l.foldl (fun s' t => add_traceable_walk st g ps fuel t s') s).traceables) ∧
      (∀ a ∈ (l.foldl (fun s' t => add_traceable_walk st g ps fuel t s') s).traceables,
        a ∈ s.traceables ∨ processedIn g (ps.map Prod.fst)
          (l.foldl (fun s' t => add_traceable_walk st g ps fuel t s') s) a) := by
  intro l
  induction l with
  | nil =>
    intro s _ hnd hend hent
    exact ⟨fun _ h => h, hnd, hend, hent, by simp, fun _ h => Or.inl h⟩
  | cons x l ih =>
    intro s hl hnd hend hent
    have hx : x ∈ g.entities := hl x (List.mem_cons_self _ _)
    have hl' : ∀ y ∈ l, y ∈ g.entities := fun y hy => hl y (List.mem_cons_of_mem _ hy)
    obtain ⟨mono1, nd1, end1, ent1, hxin1, np1⟩ :=
      add_walk_sufficient Hg Hnone hfuel hx hnd hend hent
    set s₁ := add_traceable_walk st g ps fuel x s with hs1def
    obtain ⟨mono2, nd2, end2, ent2, hmem2, np2⟩ := ih s₁ hl' nd1 end1 ent1
    simp only [List.foldl_cons]
    refine ⟨fun a ha => mono2 a (mono1 a ha), nd2, end2, ent2, ?_, ?_⟩
    · intro y hy
      rcases List.mem_cons.mp hy with h | h
      · subst h; exact mono2 y hxin1
      · exact hmem2 y h
    · intro a ha
      rcases np2 a ha with h | h
      · rcases np1 a h with h' | h'
        · exact Or.inl h'
        · exact Or.inr (processedIn_mono mono2 h')
      · exact Or.inr h

theorem construct_sound {st : Storage} {g : EntityGraph}
    {ps : List (String × Option Int)} {fuel : Nat} {starts : List Nat} :
    ∀ a ∈ (construct_graph_input st g ps fuel starts).traceables,
      Reachable g (ps.map Prod.fst) starts a := by
  have Hstep : ∀ a b rel ml, (rel, ml) ∈ ps →
      Reachable g (ps.map Prod.fst) starts a → b ∈ g.rels a rel →
      Reachable g (ps.map Prod.fst) starts b := by
    intro a b rel ml hp hra hb
    exact Reachable.step hra (List.mem_map.mpr ⟨(rel, ml), hp, rfl⟩) hb
  have main : ∀ (l : List Nat) (s : GraphState), (∀ x ∈ l, x ∈ starts) →
      (∀ a ∈ s.traceables, Reachable g (ps.map Prod.fst) starts a) →
      ∀ a ∈ (l.foldl (fun s' t => add_traceable_walk st g ps fuel t s') s).traceables,
        Reachable g (ps.map Prod.fst) starts a := by
    intro l
    induction l with
    | nil => intro s _ h; exact h
    | cons x l ih =>
      intro s hl hall
      simp only [List.foldl_cons]
      refine ih _ (fun y hy => hl y (List.mem_cons_of_mem _ hy)) ?_
      intro a ha
      rw [add_traceable_walk_traceables] at ha
      exact walk_sound Hstep fuel x 0 s (Reachable.start (hl x (List.mem_cons_self _ _)))
        hall a ha
  intro a ha
  exact main starts ⟨[], []⟩ (fun x hx => hx) (by simp) a ha

/-- With every known relationship type allowed at unlimited depth, the set
of discovered entities is exactly the reachable closure of the start set. -/
theorem construct_traceables_iff {st : Storage} {g : EntityGraph}
    {ps : List (String × Option Int)}
    (Hg : ∀ a rel, ∀ x ∈ g.rels a rel, x ∈ g.entities)
    (Hnone : ∀ p ∈ ps, p.2 = (none : Option Int))
    {fuel : Nat} (hfuel : (edgeUniverse st g ps).length + 1 ≤ fuel)
    {starts : List Nat} (hstarts : ∀ x ∈ starts, x ∈ g.entities) (a : Nat) :
    a ∈ (construct_graph_input st g ps fuel starts).traceables ↔
      Reachable g (ps.map Prod.fst) starts a := by
  constructor
  · exact construct_sound a
  · intro hra
    obtain ⟨_, _, _, _, hmem, hnp⟩ :=
      construct_fold_sufficient Hg Hnone hfuel starts ⟨[], []⟩ hstarts
        (by simp) (by intro e he; simp at he) (by simp)
    have hclosed : ∀ b ∈ (construct_graph_input st g ps fuel starts).traceables,
        processedIn g (ps.map Prod.fst) (construct_graph_input st g ps fuel starts) b := by
      intro b hb
      rcases hnp b hb with h | h
      · simp at h
      · exact h
    induction hra with
    | start h => exact hmem _ h
    | step hra hrel hb ih => exact hclosed _ ih _ hrel _ hb

/-! Preservation of duplicate-freedom alone, with no assumptions on the
entity graph. -/

/-- Weak invariants of one call of the walk: monotone discovery and a
duplicate-free edge list, with no well-formedness assumptions at all. -/
def WalkStep0 (s s' : GraphState) : Prop :=
  (∀ a ∈ s.traceables, a ∈ s'.traceables) ∧
  (∃ app, s'.rels = s.rels ++ app) ∧
  (s.rels.Nodup → s'.rels.Nodup)

theorem walkStep0_refl (s : GraphState) : WalkStep0 s s :=
  ⟨fun _ h => h, ⟨[], by simp⟩, id⟩

theorem walkStep0_trans {s s₁ s₂ : GraphState} (h1 : WalkStep0 s s₁)
    (h2 : WalkStep0 s₁ s₂) : WalkStep0 s s₂ := by
  obtain ⟨m1, ⟨a1, e1⟩, n1⟩ := h1
  obtain ⟨m2, ⟨a2, e2⟩, n2⟩ := h2
  exact ⟨fun a h => m2 a (m1 a h), ⟨a1 ++ a2, by rw [e2, e1, List.append_assoc]⟩,
    fun h => n2 (n1 h)⟩

theorem walkRels_step0 {w : Nat → Nat → GraphState → GraphState}
    (hw : ∀ r len s, WalkStep0 s (w r len s)) (t : Nat) (rel : String) (dir : Int) :
    ∀ (rs : List Nat) (len : Nat) (s : GraphState),
      WalkStep0 s (walkRels w t len rel dir rs s) := by
  intro rs
  induction rs with
  | nil => intro len s; exact walkStep0_refl s
  | cons r rs ih =>
    intro len s
    simp only [walkRels]
    by_cases hmem : ((t, r, rel, dir) : Edge) ∈ s.rels
    · simp only [if_pos hmem]
      exact ih len s
    · simp only [if_neg hmem]
      have h1 : WalkStep0 s (pushEdge s ((t, r, rel, dir))) :=
        ⟨fun _ h => h, ⟨[(t, r, rel, dir)], rfl⟩, fun h => nodup_append_singleton hmem h⟩
      exact walkStep0_trans (walkStep0_trans h1 (hw r (len + 1) _)) (ih len _)

theorem walkPairs_step0 {st : Storage} {g : EntityGraph}
    {w : Nat → Nat → GraphState → GraphState}
    (hw : ∀ r len s, WalkStep0 s (w r len s)) (t : Nat) :
    ∀ (psfx : List (String × Option Int)) (len : Nat) (s : GraphState),
      WalkStep0 s (walkPairs st g w t len psfx s) := by
  intro psfx
  induction psfx with
  | nil => intro len s; exact walkStep0_refl s
  | cons p rest ih =>
    intro len s
    obtain ⟨rel, ml⟩ := p
    simp only [walkPairs]
    by_cases hguard : pyGuard ml len = true
    · simp only [if_pos hguard]
      exact ih len s
    · simp only [if_neg hguard]
      exact walkStep0_trans (walkRels_step0 hw t rel _ (g.rels t rel) len s) (ih len _)

theorem walk_step0 (st : Storage) (g : EntityGraph) (ps : List (String × Option Int)) :
    ∀ (fuel t len : Nat) (s : GraphState),
      WalkStep0 s (walkTraceable st g ps fuel t len s) := by
  intro fuel
  induction fuel with
  | zero => intro t len s; exact walkStep0_refl s
  | succ fuel ih =>
    intro t len s
    simp only [walkTraceable]
    have h1 : WalkStep0 s (insertTraceable s t) := by
      refine ⟨insertTraceable_mono s t, ⟨[], ?_⟩, ?_⟩
      · rw [insertTraceable_rels]; simp
      · rw [insertTraceable_rels]; exact id
    exact walkStep0_trans h1 (walkPairs_step0 (fun r len' s' => ih r len' s') t ps len _)

/-- The whole construction, from the empty `GraphInput`, always yields a
duplicate-free edge list, whatever the storage, entity graph, specs, fuel
and start entities. -/
theorem construct_rels_nodup (st : Storage) (g : EntityGraph)
    (ps : List (String × Option Int)) (fuel : Nat) (starts : List Nat) :
    (construct_graph_input st g ps fuel starts).rels.Nodup := by
  have main : ∀ (l : List Nat) (s : GraphState), s.rels.Nodup →
      (l.foldl (fun s' t => add_traceable_walk st g ps fuel t s') s).rels.Nodup := by
    intro l
    induction l with
    | nil => intro s h; exact h
    | cons x l ih =>
      intro s h
      simp only [List.foldl_cons]
      refine ih _ ?_
      show (canonPass st _ _).Nodup
      exact canonPass_nodup st _ _ ((walk_step0 st g ps fuel x 0 s).2.2 h)
  exact main starts ⟨[], []⟩ (by simp)

/-! Congruence of the walk in the depth limits: only the Boolean guard
value matters, so a `0` limit (falsy in Python) behaves exactly like no
limit. -/

theorem walkRels_congr {w₁ w₂ : Nat → Nat → GraphState → GraphState}
    (hw : ∀ r len s, w₁ r len s = w₂ r len s) (t : Nat) (rel : String) (dir : Int) :
    ∀ (rs : List Nat) (len : Nat) (s : GraphState),
      walkRels w₁ t len rel dir rs s = walkRels w₂ t len rel dir rs s := by
  intro rs
  induction rs with
  | nil => intro len s; rfl
  | cons r rs ih =>
    intro len s
    simp only [walkRels]
    rw [hw]
    by_cases hmem : ((t, r, rel, dir) : Edge) ∈ s.rels
    · simp only [if_pos hmem]
      exact ih len s
    · simp only [if_neg hmem]
      exact ih len _

theorem walk_congr_zero_none (st : Storage) (g : EntityGraph) (rel : String) :
    ∀ (fuel t len : Nat) (s : GraphState),
      walkTraceable st g [(rel, some 0)] fuel t len s =
        walkTraceable st g [(rel, none)] fuel t len s := by
  intro fuel
  induction fuel with
  | zero => intro t len s; rfl
  | succ fuel ih =>
    intro t len s
    simp only [walkTraceable, walkPairs, pyGuard]
    simp only [if_pos rfl, if_neg (by decide : ¬ (false = true)), decide_eq_true_eq]
    exact walkRels_congr (fun r len' s' => ih r len' s') t rel
      (st.get_relationship_direction rel) (g.rels t rel) len _

/-! Characterization of the relationship-spec parser's failure modes. -/

/-- The comma-separated item carries a depth suffix (a colon is present)
whose text does not parse as a Python integer. -/
def itemDepthMalformed (part : String) : Bool :=
  match splitColonOnce part with
  | [_, d] => (pyInt (pyStrip d)).isNone
  | _ => false

/-- The relationship-type name the parser extracts from one item: the text
before the first colon (or the whole item), stripped. -/
def itemRelName (part : String) : String :=
  match splitColonOnce part with
  | [r, _] => pyStrip r
  | _ => pyStrip part

theorem splitColonOnceAux_shape (cs acc : List Char) :
    (∃ x, splitColonOnceAux cs acc = [x]) ∨ ∃ x y, splitColonOnceAux cs acc = [x, y] := by
  induction cs generalizing acc with
  | nil => exact Or.inl ⟨_, rfl⟩
  | cons c cs ih =>
    simp only [splitColonOnceAux]
    by_cases hc : c = ':'
    · simp only [if_pos hc]
      exact Or.inr ⟨_, _, rfl⟩
    · simp only [if_neg hc]
      exact ih (c :: acc)

theorem splitColonOnce_shape (part : String) :
    (∃ x, splitColonOnce part = [x]) ∨ ∃ x y, splitColonOnce part = [x, y] :=
  splitColonOnceAux_shape part.data []

theorem parseItem_malformed_inv {st : Storage} {part item : String}
    (h : parseItem st part = .error (.malformedDepth item)) :
    item = part ∧ itemDepthMalformed part = true := by
  unfold parseItem at h
  unfold itemDepthMalformed
  rcases splitColonOnce_shape part with ⟨x, hx⟩ | ⟨x, y, hx⟩
  · rw [hx] at h
    simp only at h
    split at h <;> simp_all
  · rw [hx] at h
    simp only at h
    split at h
    · simp_all
    · split at h <;> simp_all

theorem parseItem_unknown_inv {st : Storage} {part name : String}
    (h : parseItem st part = .error (.unknownRelationship name)) :
    name = itemRelName part ∧ st.is_valid_relationship name = false := by
  unfold parseItem at h
  unfold itemRelName
  rcases splitColonOnce_shape part with ⟨x, hx⟩ | ⟨x, y, hx⟩
  · rw [hx] at h
    simp only at h
    split at h <;> simp_all
  · rw [hx] at h
    simp only at h
    split at h
    · simp_all
    · split at h <;> simp_all

theorem parseItem_malformed_of {st : Storage} {part : String}
    (h : itemDepthMalformed part = true) :
    parseItem st part = .error (.malformedDepth part) := by
  unfold itemDepthMalformed at h
  unfold parseItem
  rcases splitColonOnce_shape part with ⟨x, hx⟩ | ⟨x, y, hx⟩
  · rw [hx] at h
    simp at h
  · rw [hx] at h ⊢
    simp only [Option.isNone_iff_eq_none] at h
    simp only [h]

theorem parseItem_ok_of {st : Storage} {part : String}
    (hm : itemDepthMalformed part = false)
    (hv : st.is_valid_relationship (itemRelName part) = true) :
    ∃ v, parseItem st part = .ok v := by
  unfold itemDepthMalformed at hm
  unfold itemRelName at hv
  unfold parseItem
  rcases splitColonOnce_shape part with ⟨x, hx⟩ | ⟨x, y, hx⟩
  · rw [hx] at hv ⊢
    simp only at hv ⊢
    rw [hv]
    exact ⟨_, rfl⟩
  · rw [hx] at hm hv ⊢
    simp only [Option.isNone_iff_eq_none] at hm
    simp only at hv ⊢
    rcases hpy : pyInt (pyStrip y) with _ | n
    · rw [hpy] at hm; simp at hm
    · rw [hv]
      exact ⟨_, rfl⟩

theorem parseItem_error_of_invalid {st : Storage} {part : String}
    (hm : itemDepthMalformed part = false)
    (hv : st.is_valid_relationship (itemRelName part) = false) :
    parseItem st part = .error (.unknownRelationship (itemRelName part)) := by
  unfold itemDepthMalformed at hm
  unfold itemRelName at hv ⊢
  unfold parseItem
  rcases splitColonOnce_shape part with ⟨x, hx⟩ | ⟨x, y, hx⟩
  · rw [hx] at hv ⊢
    simp only at hv ⊢
    simp [hv]
  · rw [hx] at hm hv ⊢
    simp only at hm hv ⊢
    rcases hpy : pyInt (pyStrip y) with _ | n
    · rw [hpy] at hm; simp at hm
    · simp [hpy, hv]

theorem parseItems_malformed_inv {st : Storage} :
    ∀ {parts : List String} {item : String},
      parseItems st parts = .error (.malformedDepth item) →
      item ∈ parts ∧ itemDepthMalformed item = true := by
  intro parts
  induction parts with
  | nil => intro item h; simp [parseItems] at h
  | cons part rest ih =>
    intro item h
    simp only [parseItems] at h
    rcases hp : parseItem st part with e | v
    · rw [hp] at h
      simp only [Except.error.injEq] at h
      subst h
      obtain ⟨heq, hmal⟩ := parseItem_malformed_inv hp
      subst heq
      exact ⟨List.mem_cons_self _ _, hmal⟩
    · rw [hp] at h
      simp only at h
      rcases hr : parseItems st rest with e' | l
      · rw [hr] at h
        simp only [Except.error.injEq] at h
        subst h
        obtain ⟨hmem, hmal⟩ := ih hr
        exact ⟨List.mem_cons_of_mem _ hmem, hmal⟩
      · rw [hr] at h
        simp at h

theorem parseItems_unknown_inv {st : Storage} :
    ∀ {parts : List String} {name : String},
      parseItems st parts = .error (.unknownRelationship name) →
      st.is_valid_relationship name = false ∧ ∃ item ∈ parts, itemRelName item = name := by
  intro parts
  induction parts with
  | nil => intro name h; simp [parseItems] at h
  | cons part rest ih =>
    intro name h
    simp only [parseItems] at h
    rcases hp : parseItem st part with e | v
    · rw [hp] at h
      simp only [Except.error.injEq] at h
      subst h
      obtain ⟨heq, hval⟩ := parseItem_unknown_inv hp
      exact ⟨hval, part, List.mem_cons_self _ _, heq.symm⟩
    · rw [hp] at h
      simp only at h
      rcases hr : parseItems st rest with e' | l
      · rw [hr] at h
        simp only [Except.error.injEq] at h
        subst h
        obtain ⟨hval, item, hmem, heq⟩ := ih hr
        exact ⟨hval, item, List.mem_cons_of_mem _ hmem, heq⟩
      · rw [hr] at h
        simp at h

theorem parseItems_malformed_of {st : Storage} :
    ∀ {parts : List String},
      (∀ item ∈ parts, st.is_valid_relationship (itemRelName item) = true) →
      (∃ item ∈ parts, itemDepthMalformed item = true) →
      ∃ item, parseItems st parts = .error (.malformedDepth item) := by
  intro parts
  induction parts with
  | nil => intro _ h; simp at h
  | cons part rest ih =>
    intro hval hex
    simp only [parseItems]
    by_cases hm : itemDepthMalformed part = true
    · rw [parseItem_malformed_of hm]
      exact ⟨part, rfl⟩
    · have hm' : itemDepthMalformed part = false := by
        cases h' : itemDepthMalformed part
        · rfl
        · exact absurd h' hm
      obtain ⟨v, hv⟩ := parseItem_ok_of hm' (hval part (List.mem_cons_self _ _))
      rw [hv]
      have hex' : ∃ item ∈ rest, itemDepthMalformed item = true := by
        obtain ⟨item, hmem, hmal⟩ := hex
        rcases List.mem_cons.mp hmem with h | h
        · subst h; exact absurd hmal hm
        · exact ⟨item, h, hmal⟩
      obtain ⟨item, hitem⟩ := ih (fun i hi => hval i (List.mem_cons_of_mem _ hi)) hex'
      rw [hitem]
      exact ⟨item, rfl⟩

theorem parseItems_error_of_invalid {st : Storage} :
    ∀ {parts : List String},
      (∃ item ∈ parts, st.is_valid_relationship (itemRelName item) = false) →
      ∃ e, parseItems st parts = .error e := by
  intro parts
  induction parts with
  | nil => intro h; simp at h
  | cons part rest ih =>
    intro hex
    simp only [parseItems]
    rcases hp : parseItem st part with e | v
    · exact ⟨e, rfl⟩
    · simp only
      have hvalid : st.is_valid_relationship (itemRelName part) = true := by
        by_contra hcon
        have hm : itemDepthMalformed part = false := by
          cases h' : itemDepthMalformed part
          · rfl
          · rw [parseItem_malformed_of h'] at hp
            exact absurd hp (by simp)
        have := parseItem_error_of_invalid hm (by
          cases h' : st.is_valid_relationship (itemRelName part)
          · rfl
          · exact absurd h' hcon)
        rw [this] at hp
        exact absurd hp (by simp)
      have hex' : ∃ item ∈ rest, st.is_valid_relationship (itemRelName item) = false := by
        obtain ⟨item, hmem, hinv⟩ := hex
        rcases List.mem_cons.mp hmem with h | h
        · subst h
          rw [hvalid] at hinv
          exact absurd hinv (by simp)
        · exact ⟨item, h, hinv⟩
      obtain ⟨e, he⟩ := ih hex'
      rw [he]
      exact ⟨e, rfl⟩

/-! Orchestration behaviour. -/

theorem get_start_traceables_spec (st : Storage) :
    ∀ tags : List String,
      (get_start_traceables st tags).1 = tags.filterMap st.traceable_by_tag ∧
      (get_start_traceables st tags).2 =
        (tags.filter (fun tag => (st.traceable_by_tag tag).isNone)).map tagWarning := by
  intro tags
  induction tags with
  | nil => exact ⟨rfl, rfl⟩
  | cons tag rest ih =>
    simp only [get_start_traceables, List.filterMap_cons, List.filter_cons]
    rcases hres : st.traceable_by_tag tag with _ | t
    · simp [hres, ih.1, ih.2]
    · simp [hres, ih.1, ih.2]

theorem process_of_parse_error (st : Storage) (g : EntityGraph) (tags : List String)
    (relInput : Option String) (e : ParseError)
    (herr : parse_relationships st relInput = .error e)
    (hne : (get_start_traceables st tags).1 ≠ []) :
    process_graph_node st g tags relInput = ((get_start_traceables st tags).2, .error e) := by
  unfold process_graph_node
  rw [if_neg hne, herr]

theorem process_of_empty_start (st : Storage) (g : EntityGraph) (tags : List String)
    (relInput : Option String) (hempty : (get_start_traceables st tags).1 = []) :
    process_graph_node st g tags relInput =
      ((get_start_traceables st tags).2 ++ [noValidTagsMessage],
        .ok (.errorDiagnostic noValidTagsMessage)) := by
  unfold process_graph_node
  rw [if_pos hempty]

/-! Behaviour of the sorted read-out properties. -/

theorem mem_traceablesSorted (s : GraphState) (a : Nat) :
    a ∈ traceablesSorted s ↔ a ∈ s.traceables :=
  (List.perm_insertionSort _ _).mem_iff

theorem mem_relationshipsSorted (s : GraphState) (e : Edge) :
    e ∈ relationshipsSorted s ↔ e ∈ s.rels :=
  (List.perm_insertionSort _ _).mem_iff

theorem traceablesSorted_sorted (s : GraphState) :
    List.Sorted (· ≤ ·) (traceablesSorted s) :=
  List.sorted_insertionSort _ _

theorem relationshipsSorted_sorted (s : GraphState) :
    List.Sorted edgeLe (relationshipsSorted s) :=
  List.sorted_insertionSort _ _

theorem traceablesSorted_perm_eq {s₁ s₂ : GraphState}
    (h : s₁.traceables.Perm s₂.traceables) :
    traceablesSorted s₁ = traceablesSorted s₂ := by
  refine List.eq_of_perm_of_sorted ?_ (traceablesSorted_sorted s₁) (traceablesSorted_sorted s₂)
  exact ((List.perm_insertionSort _ _).trans h).trans (List.perm_insertionSort _ _).symm

theorem relationshipsSorted_perm_eq {s₁ s₂ : GraphState}
    (h : s₁.rels.Perm s₂.rels) :
    relationshipsSorted s₁ = relationshipsSorted s₂ := by
  refine List.eq_of_perm_of_sorted ?_ (relationshipsSorted_sorted s₁)
    (relationshipsSorted_sorted s₂)
  exact ((List.perm_insertionSort _ _).trans h).trans (List.perm_insertionSort _ _).symm

/-! Concrete registries and entity graphs used as test fixtures. -/

/-- Registry with one forward relationship type `t` (direction `+1`, its own
opposite) and one resolvable tag `a` denoting entity `0`. -/
def regT : Storage :=
  ⟨[("t", 1)], fun _ => "t", fun tag => if tag = "a" then some 0 else none⟩

/-- Registry with one backward relationship type `d` (direction `-1`, think
`depends-on`) whose opposite is `r` (think `required-by`). -/
def regD : Storage :=
  ⟨[("d", -1)], fun rel => if rel = "d" then "r" else "d", fun _ => none⟩

/-- Three entities in a directed cycle `0 → 1 → 2 → 0` under type `t`. -/
def gCycle : EntityGraph :=
  ⟨[0, 1, 2], fun t rel =>
    if rel = "t" then
      if t = 0 then [1] else if t = 1 then [2] else if t = 2 then [0] else []
    else []⟩

/-- Three entities in a chain `0 → 1 → 2` under type `t`. -/
def gChain : EntityGraph :=
  ⟨[0, 1, 2], fun t rel =>
    if rel = "t" then
      if t = 0 then [1] else if t = 1 then [2] else []
    else []⟩

/-- Three entities with `0 → 1` and `2 → 0` under type `t`: the walks from
start entities `0` and `2` both reach the edge `0 → 1`. -/
def gVee : EntityGraph :=
  ⟨[0, 1, 2], fun t rel =>
    if rel = "t" then
      if t = 0 then [1] else if t = 2 then [0] else []
    else []⟩

/-- Three entities with `2 → 0` and `0 → 1` under the backward type `d`. -/
def gDep : EntityGraph :=
  ⟨[0, 1, 2], fun t rel =>
    if rel = "d" then
      if t = 2 then [0] else if t = 0 then [1] else []
    else []⟩

theorem gDep_wf : ∀ a rel, ∀ x ∈ gDep.rels a rel, x ∈ gDep.entities := by
  intro a rel x hx
  simp only [gDep] at hx ⊢
  split_ifs at hx <;> simp_all

theorem gCycle_wf : ∀ a rel, ∀ x ∈ gCycle.rels a rel, x ∈ gCycle.entities := by
  intro a rel x hx
  simp only [gCycle] at hx ⊢
  split_ifs at hx <;> simp_all

theorem gChain_wf : ∀ a rel, ∀ x ∈ gChain.rels a rel, x ∈ gChain.entities := by
  intro a rel x hx
  simp only [gChain] at hx ⊢
  split_ifs at hx <;> simp_all

/-! Claim C3: no duplicate edges. -/

/-- C3: each relationship edge appears at most once in the final edge set of
a construction request: in general the sorted edge read-out of
`construct_graph_input` is duplicate-free; on the directed cycle
`0 → 1 → 2 → 0` under type `t` the walk from `0` terminates and yields each
of the three edges exactly once; and when start entities `0` and `2` both
reach the edge `0 → 1`, that edge appears once in the result. -/
theorem claim_C3 :
    (∀ (st : Storage) (g : EntityGraph) (ps : List (String × Option Int)) (fuel : Nat)
      (starts : List Nat),
      (relationshipsSorted (construct_graph_input st g ps fuel starts)).Nodup) ∧
    relationshipsSorted (construct_graph_input regT gCycle [("t", none)]
        (sufficientFuel regT gCycle [("t", none)]) [0]) =
      [(0, 1, "t", 1), (1, 2, "t", 1), (2, 0, "t", 1)] ∧
    relationshipsSorted (construct_graph_input regT gVee [("t", none)]
        (sufficientFuel regT gVee [("t", none)]) [0, 2]) =
      [(0, 1, "t", 1), (2, 0, "t", 1)] := by
  refine ⟨?_, by decide, by decide⟩
  intro st g ps fuel starts
  exact ((List.perm_insertionSort edgeLe _).nodup_iff).mpr
    (construct_rels_nodup st g ps fuel starts)

/-! Claim C4: at-most-once edge exploration. -/

/-- C4 counterexample: within one construction request from the start
entities `[2, 0]` over the backward type `d` (graph `2 → 0 → 1`), the
oriented edge `(0, 1, d, -1)` is recorded during the first start's walk,
removed again by the canonicalization that runs at the end of
`add_traceable_walk`, and then recorded (and explored) a second time during
the second start's walk — so an oriented edge IS recorded and recursed into
twice during one request, refuting the claim as stated.  The fourth conjunct
is literally the walk the second `add_traceable_walk` of
`construct_graph_input regD gDep [("d", none)] _ [2, 0]` begins with. -/
theorem claim_C4_counterexample :
    ((0, 1, "d", -1) : Edge) ∉ (⟨[], []⟩ : GraphState).rels ∧
    ((0, 1, "d", -1) : Edge) ∈ (walkTraceable regD gDep [("d", none)]
        (sufficientFuel regD gDep [("d", none)]) 2 0 ⟨[], []⟩).rels ∧
    ((0, 1, "d", -1) : Edge) ∉ (add_traceable_walk regD gDep [("d", none)]
        (sufficientFuel regD gDep [("d", none)]) 2 ⟨[], []⟩).rels ∧
    ((0, 1, "d", -1) : Edge) ∈ (walkTraceable regD gDep [("d", none)]
        (sufficientFuel regD gDep [("d", none)]) 0 0
        (add_traceable_walk regD gDep [("d", none)]
          (sufficientFuel regD gDep [("d", none)]) 2 ⟨[], []⟩)).rels := by
  decide

/-- C4 (amended): within a single start-entity walk, each oriented edge is
recorded at most once — the recorded-edge list only grows and stays
duplicate-free — and the number of recorded edges is bounded a priori by the
number of candidate oriented edges of the finite entity graph, which is what
bounds the work of a depth-unbounded traversal even on cyclic graphs.
Across one request with several start entities this fails: the per-walk
canonicalization can remove a negative-direction edge, and a later start's
walk records and explores it again (see the counterexample). -/
theorem claim_C4_amended {st : Storage} {g : EntityGraph} {ps : List (String × Option Int)}
    (Hg : ∀ a rel, ∀ x ∈ g.rels a rel, x ∈ g.entities) (fuel t len : Nat) (s : GraphState)
    (ht : t ∈ g.entities) (hnd : s.rels.Nodup) :
    (∃ app, (walkTraceable st g ps fuel t len s).rels = s.rels ++ app) ∧
    (walkTraceable st g ps fuel t len s).rels.Nodup ∧
    (walkTraceable st g ps fuel t len s).rels.length ≤
      s.rels.length + (edgeUniverse st g ps).length := by
  obtain ⟨_, ⟨app, happ, hU⟩, hndp, _⟩ := walk_step1 Hg fuel t len s ht
  have hnd' := hndp hnd
  refine ⟨⟨app, happ⟩, hnd', ?_⟩
  rw [happ, List.length_append]
  rw [happ] at hnd'
  have happN : app.Nodup := (List.nodup_append.mp hnd').2.1
  have hle : app.length ≤ (edgeUniverse st g ps).length := (happN.subperm hU).length_le
  omega

/-- C4 witness: the amended statement instantiated on the backward-type
fixture. -/
theorem claim_C4_witness :
    (2 ∈ gDep.entities ∧ (⟨[], []⟩ : GraphState).rels.Nodup) ∧
    (∃ app, (walkTraceable regD gDep [("d", none)] 3 2 0 ⟨[], []⟩).rels = [] ++ app) ∧
    (walkTraceable regD gDep [("d", none)] 3 2 0 ⟨[], []⟩).rels.Nodup ∧
    (walkTraceable regD gDep [("d", none)] 3 2 0 ⟨[], []⟩).rels.length ≤
      ([] : List Edge).length + (edgeUniverse regD gDep [("d", none)]).length :=
  ⟨⟨by decide, by decide⟩,
    claim_C4_amended gDep_wf 3 2 0 ⟨[], []⟩ (by decide) (by decide)⟩

/-! Claim C1: the per-type depth bound. -/

/-- C1 counterexample: for the spec `("t", maxDepth = 0)` the claim (which
explicitly includes `k = 0`) demands that the walker skip type `t` at every
entity, since every depth `d` satisfies `d ≥ 0` — so no `t`-edge may appear
in the result.  But Python treats `0` as falsy in `if max_length and ...`,
the guard never fires (first conjunct), and the walk from entity `0` on the
chain `0 → 1 → 2` does record `t`-edges (second conjunct). -/
theorem claim_C1_counterexample :
    pyGuard (some 0) 0 = false ∧
    ¬ (∀ e ∈ (add_traceable_walk regT gChain [("t", some 0)]
        (sufficientFuel regT gChain [("t", some 0)]) 0 ⟨[], []⟩).rels, e.2.2.1 ≠ "t") := by
  decide

theorem walkRels_depth_skip {rel : String} {m : Int}
    {w : Nat → Nat → GraphState → GraphState}
    (hw : ∀ (r len' : Nat) (s' : GraphState), m ≤ (len' : Int) → ∀ e ∈ (w r len' s').rels,
      e ∈ s'.rels ∨ e.2.2.1 ≠ rel)
    {t : Nat} {rel' : String} (hne : rel' ≠ rel) (dir : Int) :
    ∀ (rs : List Nat) (len : Nat) (s : GraphState), m ≤ (len : Int) →
      ∀ e ∈ (walkRels w t len rel' dir rs s).rels, e ∈ s.rels ∨ e.2.2.1 ≠ rel := by
  intro rs
  induction rs with
  | nil => intro len s _ e he; exact Or.inl he
  | cons r rs ih =>
    intro len s hlen e he
    simp only [walkRels] at he
    by_cases hmem : ((t, r, rel', dir) : Edge) ∈ s.rels
    · rw [if_pos hmem] at he
      exact ih len s hlen e he
    · rw [if_neg hmem] at he
      have hlen1 : m ≤ ((len + 1 : Nat) : Int) := by push_cast; omega
      rcases ih len _ hlen e he with h | h
      · rcases hw r (len + 1) _ hlen1 e h with h' | h'
        · rcases List.mem_append.mp h' with h'' | h''
          · exact Or.inl h''
          · simp only [List.mem_singleton] at h''
            subst h''
            exact Or.inr hne
        · exact Or.inr h'
      · exact Or.inr h

theorem walkPairs_depth_skip {st : Storage} {g : EntityGraph}
    {ps : List (String × Option Int)} {rel : String} {m : Int}
    (hall : ∀ p ∈ ps, p.1 = rel → p.2 = some m) (hm : m ≠ 0)
    {w : Nat → Nat → GraphState → GraphState}
    (hw : ∀ (r len' : Nat) (s' : GraphState), m ≤ (len' : Int) → ∀ e ∈ (w r len' s').rels,
      e ∈ s'.rels ∨ e.2.2.1 ≠ rel) {t : Nat} :
    ∀ (psfx : List (String × Option Int)), (∀ p ∈ psfx, p ∈ ps) →
      ∀ (len : Nat) (s : GraphState), m ≤ (len : Int) →
      ∀ e ∈ (walkPairs st g w t len psfx s).rels, e ∈ s.rels ∨ e.2.2.1 ≠ rel := by
  intro psfx
  induction psfx with
  | nil => intro _ len s _ e he; exact Or.inl he
  | cons p rest ih =>
    intro hsub len s hlen e he
    obtain ⟨rel'', ml⟩ := p
    have hsub' : ∀ q ∈ rest, q ∈ ps := fun q hq => hsub q (List.mem_cons_of_mem _ hq)
    simp only [walkPairs] at he
    by_cases hguard : pyGuard ml len = true
    · rw [if_pos hguard] at he
      exact ih hsub' len s hlen e he
    · rw [if_neg hguard] at he
      by_cases hrel : rel'' = rel
      · exfalso
        subst hrel
        have : ml = some m := hall (rel'', ml) (hsub _ (List.mem_cons_self _ _)) rfl
        subst this
        apply hguard
        simp only [pyGuard, if_neg hm, decide_eq_true_eq]
        exact hlen
      · rcases ih hsub' len _ hlen e he with h | h
        · exact walkRels_depth_skip hw hrel _ (g.rels t rel'') len s hlen e h
        · exact Or.inr h

/-- C1 (amended): for a spec `(type, maxDepth = k)` whose depth limit `k` is
a truthy Python value (`k ≠ 0`), the walker skips traversal along that type
from any entity whose current depth `d` satisfies `d ≥ k`: a (sub)walk
entered at depth `d ≥ k` contributes no edge of that type, so along that
type the traversal never extends beyond `k` steps from a walk root.  The
original claim's parenthetical "including k = 0" is what fails: `0` is falsy
in `if max_length and length >= max_length`, so a limit of `0` disables the
guard instead of forbidding the type (see the counterexample). -/
theorem claim_C1_amended {st : Storage} {g : EntityGraph}
    {ps : List (String × Option Int)} {rel : String} {m : Int}
    (hall : ∀ p ∈ ps, p.1 = rel → p.2 = some m) (hm : m ≠ 0) :
    ∀ (fuel t len : Nat) (s : GraphState), m ≤ (len : Int) →
      ∀ e ∈ (walkTraceable st g ps fuel t len s).rels, e ∈ s.rels ∨ e.2.2.1 ≠ rel := by
  intro fuel
  induction fuel with
  | zero => intro t len s _ e he; exact Or.inl he
  | succ fuel ih =>
    intro t len s hlen e he
    simp only [walkTraceable] at he
    have h := walkPairs_depth_skip hall hm
      (fun (r len' : Nat) (s' : GraphState) hlen' e' he' => ih r len' s' hlen' e' he') ps
      (fun q hq => hq) len (insertTraceable s t) hlen e he
    rw [insertTraceable_rels] at h
    exact h

/-- C1 witness: the amended statement instantiated with limit `1` at entry
depth `1` on the chain fixture. -/
theorem claim_C1_witness :
    ((∀ p ∈ [(("t" : String), some (1 : Int))], p.1 = "t" → p.2 = some (1 : Int)) ∧
      (1 : Int) ≠ 0 ∧ (1 : Int) ≤ ((1 : Nat) : Int)) ∧
    ∀ e ∈ (walkTraceable regT gChain [("t", some 1)] 4 1 1 ⟨[], []⟩).rels,
      e ∈ (⟨[], []⟩ : GraphState).rels ∨ e.2.2.1 ≠ "t" :=
  ⟨⟨by decide, by decide, by decide⟩,
    @claim_C1_amended regT gChain [("t", some (1 : Int))] "t" 1 (by decide) (by decide)
      4 1 1 ⟨[], []⟩ (by decide)⟩

/-! Claim C2: direction canonicalization. -/

theorem edgeUniverse_inv {st : Storage} {g : EntityGraph}
    {ps : List (String × Option Int)} {e : Edge} (he : e ∈ edgeUniverse st g ps) :
    ∃ t p r, t ∈ g.entities ∧ p ∈ ps ∧ r ∈ g.rels t (Prod.fst p) ∧
      e = (t, r, Prod.fst p, st.get_relationship_direction (Prod.fst p)) := by
  unfold edgeUniverse at he
  rw [List.mem_flatMap] at he
  obtain ⟨t, ht, he⟩ := he
  rw [List.mem_flatMap] at he
  obtain ⟨p, hp, he⟩ := he
  rw [List.mem_map] at he
  obtain ⟨r, hr, he⟩ := he
  exact ⟨t, p, r, ht, hp, hr, he.symm⟩

theorem construct_all_forward {st : Storage} {g : EntityGraph}
    {ps : List (String × Option Int)} {fuel : Nat}
    (Hg : ∀ a rel, ∀ x ∈ g.rels a rel, x ∈ g.entities)
    (hdir : ∀ p ∈ ps, st.get_relationship_direction (Prod.fst p) = 1 ∨
      st.get_relationship_direction (Prod.fst p) = -1) :
    ∀ (starts : List Nat), (∀ x ∈ starts, x ∈ g.entities) →
      ∀ e ∈ (construct_graph_input st g ps fuel starts).rels, e.2.2.2 = 1 := by
  have main : ∀ (l : List Nat) (s : GraphState), (∀ x ∈ l, x ∈ g.entities) →
      s.rels.Nodup → (∀ e ∈ s.rels, e.2.2.2 = 1) →
      (l.foldl (fun s' t => add_traceable_walk st g ps fuel t s') s).rels.Nodup ∧
      ∀ e ∈ (l.foldl (fun s' t => add_traceable_walk st g ps fuel t s') s).rels,
        e.2.2.2 = 1 := by
    intro l
    induction l with
    | nil => intro s _ hnd hall; exact ⟨hnd, hall⟩
    | cons x l ih =>
      intro s hl hnd hall
      simp only [List.foldl_cons]
      obtain ⟨_, ⟨app, happ, hUapp⟩, hndimp, _⟩ :=
        walk_step1 Hg fuel x 0 s (hl x (List.mem_cons_self _ _))
      have hnd1 : (walkTraceable st g ps fuel x 0 s).rels.Nodup := hndimp hnd
      have hdirs1 : ∀ e ∈ (walkTraceable st g ps fuel x 0 s).rels,
          e.2.2.2 = 1 ∨ e.2.2.2 = -1 := by
        intro e he
        rw [happ] at he
        rcases List.mem_append.mp he with h | h
        · exact Or.inl (hall e h)
        · obtain ⟨t, p, r, _, hp, _, hedef⟩ := edgeUniverse_inv (hUapp e h)
          subst hedef
          exact hdir p hp
      have hcanon_forward : ∀ e ∈ (add_traceable_walk st g ps fuel x s).rels,
          e.2.2.2 = 1 := by
        intro e he
        exact canonPass_forward st _ _ hnd1 hdirs1 (fun e' he' _ => he') e he
      have hcanon_nodup : (add_traceable_walk st g ps fuel x s).rels.Nodup :=
        canonPass_nodup st _ _ hnd1
      exact ih _ (fun y hy => hl y (List.mem_cons_of_mem _ hy)) hcanon_nodup hcanon_forward
  intro starts hstarts
  exact (main starts ⟨[], []⟩ hstarts (by simp) (by simp)).2

/-- C2: after a construction request completes, every edge in the final
edge set has direction `+1`: every oriented edge recorded with direction
`-1` is replaced during canonicalization by the reversed edge under the
relationship type's opposite with direction `+1`, and no negative-direction
tuple remains in the read-out. -/
theorem claim_C2 {st : Storage} {g : EntityGraph} {ps : List (String × Option Int)}
    {fuel : Nat} (Hg : ∀ a rel, ∀ x ∈ g.rels a rel, x ∈ g.entities)
    (hdir : ∀ p ∈ ps, st.get_relationship_direction (Prod.fst p) = 1 ∨
      st.get_relationship_direction (Prod.fst p) = -1) :
    (∀ (starts : List Nat), (∀ x ∈ starts, x ∈ g.entities) →
      ∀ e ∈ relationshipsSorted (construct_graph_input st g ps fuel starts),
        e.2.2.2 = 1) ∧
    (∀ (t : Nat) (s : GraphState), t ∈ g.entities → s.rels.Nodup →
      ∀ e ∈ (walkTraceable st g ps fuel t 0 s).rels, e.2.2.2 = -1 →
        (e.2.1, e.1, st.get_relationship_opposite e.2.2.1, 1) ∈
          (add_traceable_walk st g ps fuel t s).rels) := by
  constructor
  · intro starts hstarts e he
    rw [mem_relationshipsSorted] at he
    exact construct_all_forward Hg hdir starts hstarts e he
  · intro t s ht hnd e he hneg
    obtain ⟨_, _, hndimp, _⟩ := walk_step1 Hg fuel t 0 s ht
    exact canonPass_rev_mem st _ _ e (hndimp hnd) he he hneg

/-- C2 witness: on the backward type `d` (direction `-1`, opposite `r`) with
graph `2 → 0 → 1`, the construction from start `2` yields only forward
edges, and the negative edge `(0, 1, d, -1)` recorded by the walk appears
reversed as `(1, 0, r, +1)` after canonicalization. -/
theorem claim_C2_witness :
    ((∀ p ∈ [(("d" : String), (none : Option Int))],
        regD.get_relationship_direction (Prod.fst p) = 1 ∨
        regD.get_relationship_direction (Prod.fst p) = -1) ∧
      (∀ x ∈ [2], x ∈ gDep.entities) ∧
      2 ∈ gDep.entities ∧ (⟨[], []⟩ : GraphState).rels.Nodup ∧
      ((0, 1, "d", -1) : Edge) ∈ (walkTraceable regD gDep [("d", none)] 3 2 0 ⟨[], []⟩).rels) ∧
    (∀ e ∈ relationshipsSorted (construct_graph_input regD gDep [("d", none)] 3 [2]),
      e.2.2.2 = 1) ∧
    ((1, 0, "r", 1) : Edge) ∈ (add_traceable_walk regD gDep [("d", none)] 3 2 ⟨[], []⟩).rels :=
  ⟨⟨by decide, by decide, by decide, by decide, by decide⟩,
    (@claim_C2 regD gDep [("d", none)] 3 gDep_wf (by decide)).1 [2] (by decide),
    (@claim_C2 regD gDep [("d", none)] 3 gDep_wf (by decide)).2 2 ⟨[], []⟩ (by decide)
      (by decide) (0, 1, "d", -1) (by decide) (by decide)⟩

/-! Claim C5: deterministic sorted read-out. -/

/-- C5: the `traceables` and `relationships` read-outs of a `GraphInput` are
sorted (entities by tag, edges by tuple), and they depend only on the
discovered sets, not on the order in which the traversal happened to record
them: any two states whose entity lists and edge lists are permutations of
one another produce identical ordered sequences, so two constructions from
the same inputs yield identical output. -/
theorem claim_C5 (s₁ s₂ : GraphState) (htr : s₁.traceables.Perm s₂.traceables)
    (hrel : s₁.rels.Perm s₂.rels) :
    (traceablesSorted s₁ = traceablesSorted s₂ ∧
      relationshipsSorted s₁ = relationshipsSorted s₂) ∧
    List.Sorted (· ≤ ·) (traceablesSorted s₁) ∧
    List.Sorted edgeLe (relationshipsSorted s₁) :=
  ⟨⟨traceablesSorted_perm_eq htr, relationshipsSorted_perm_eq hrel⟩,
    traceablesSorted_sorted s₁, relationshipsSorted_sorted s₁⟩

/-- C5 witness: two states that recorded the same entities and edges in
different orders read out identically and sorted. -/
theorem claim_C5_witness :
    (([2, 1] : List Nat).Perm [1, 2] ∧
      ([((1 : Nat), (0 : Nat), "t", (1 : Int)), (0, 1, "t", 1)] : List Edge).Perm
        [(0, 1, "t", 1), (1, 0, "t", 1)]) ∧
    (traceablesSorted ⟨[2, 1], [(1, 0, "t", 1), (0, 1, "t", 1)]⟩ =
        traceablesSorted ⟨[1, 2], [(0, 1, "t", 1), (1, 0, "t", 1)]⟩ ∧
      relationshipsSorted ⟨[2, 1], [(1, 0, "t", 1), (0, 1, "t", 1)]⟩ =
        relationshipsSorted ⟨[1, 2], [(0, 1, "t", 1), (1, 0, "t", 1)]⟩) ∧
    List.Sorted (· ≤ ·) (traceablesSorted ⟨[2, 1], [(1, 0, "t", 1), (0, 1, "t", 1)]⟩) ∧
    List.Sorted edgeLe (relationshipsSorted ⟨[2, 1], [(1, 0, "t", 1), (0, 1, "t", 1)]⟩) :=
  ⟨⟨by decide, by decide⟩,
    claim_C5 ⟨[2, 1], [(1, 0, "t", 1), (0, 1, "t", 1)]⟩
      ⟨[1, 2], [(0, 1, "t", 1), (1, 0, "t", 1)]⟩ (by decide) (by decide)⟩

/-! Claim C6: malformed depth suffixes. -/

/-- C6: the relationship-spec parser splits each comma-separated item on the
first colon, and fails with an error carrying the offending item text
exactly when an item has a depth suffix that does not parse as an integer.
First conjunct: a malformed-depth failure always names an item of the input
whose depth suffix fails to parse.  Second conjunct: on input whose
relationship names are all known (so that no unknown-name failure preempts
the scan), the parse fails with a malformed-depth error precisely when some
item has an unparsable depth suffix.  Third conjunct: the item `a:1:2`
splits at the first colon, leaving the unparsable suffix `1:2`, and the
error carries the complete item text. -/
theorem claim_C6 (st : Storage) (s : String) :
    (∀ item, parse_relationships st (some s) = .error (.malformedDepth item) →
      item ∈ splitComma s ∧ itemDepthMalformed item = true) ∧
    ((∀ item ∈ splitComma s, st.is_valid_relationship (itemRelName item) = true) →
      ((∃ item ∈ splitComma s, itemDepthMalformed item = true) ↔
        ∃ item, parse_relationships st (some s) = .error (.malformedDepth item))) ∧
    parseItem st "a:1:2" = .error (.malformedDepth "a:1:2") := by
  have hinv : ∀ item, parse_relationships st (some s) = .error (.malformedDepth item) →
      item ∈ splitComma s ∧ itemDepthMalformed item = true := by
    intro item h
    simp only [parse_relationships] at h
    by_cases hs : s = ""
    · rw [if_pos hs] at h
      exact absurd h (by simp)
    · rw [if_neg hs] at h
      exact parseItems_malformed_inv h
  refine ⟨hinv, ?_, rfl⟩
  intro hval
  constructor
  · intro hex
    by_cases hs : s = ""
    · exfalso
      subst hs
      exact absurd hex (by decide)
    · obtain ⟨item, hi⟩ := parseItems_malformed_of hval hex
      refine ⟨item, ?_⟩
      simp only [parse_relationships]
      rw [if_neg hs]
      exact hi
  · rintro ⟨item, h⟩
    obtain ⟨hmem, hmal⟩ := hinv item h
    exact ⟨item, hmem, hmal⟩

/-- C6 witness: with both relationship names known, the input `t,t:x` fails
with a malformed-depth error (the suffix `x` is not an integer), while the
error-free parse of `t:3` shows an integer suffix raises nothing. -/
theorem claim_C6_witness :
    ((∀ item ∈ splitComma "t,t:x", regT.is_valid_relationship (itemRelName item) = true) ∧
      (∃ item ∈ splitComma "t,t:x", itemDepthMalformed item = true) ∧
      parse_relationships regT (some "t:3") = .ok [("t", some 3)]) ∧
    ∃ item, parse_relationships regT (some "t,t:x") = .error (.malformedDepth item) :=
  ⟨⟨by decide, by decide, by decide⟩,
    ((claim_C6 regT "t,t:x").2.1 (by decide)).mp (by decide)⟩

/-! Claim C7: unknown relationship names. -/

/-- C7: an item whose relationship-type name is not known to the registry
makes the parse fail with an error naming the type (first conjunct: every
unknown-name failure names an invalid type extracted from some item; second
conjunct: some item with an invalid name forces a failure), and the failure
is not recovered locally: it propagates out of the parser, and the diagram
whose processing invoked it produces no replacement output (third
conjunct). -/
theorem claim_C7 (st : Storage) (s : String) :
    (∀ name, parse_relationships st (some s) = .error (.unknownRelationship name) →
      st.is_valid_relationship name = false ∧
        ∃ item ∈ splitComma s, itemRelName item = name) ∧
    (s ≠ "" →
      (∃ item ∈ splitComma s, st.is_valid_relationship (itemRelName item) = false) →
      ∃ e, parse_relationships st (some s) = .error e) ∧
    (∀ (g : EntityGraph) (tags : List String) (e : ParseError),
      parse_relationships st (some s) = .error e →
      (get_start_traceables st tags).1 ≠ [] →
      process_graph_node st g tags (some s) =
        ((get_start_traceables st tags).2, .error e)) := by
  refine ⟨?_, ?_, ?_⟩
  · intro name h
    simp only [parse_relationships] at h
    by_cases hs : s = ""
    · rw [if_pos hs] at h
      exact absurd h (by simp)
    · rw [if_neg hs] at h
      exact parseItems_unknown_inv h
  · intro hs hex
    obtain ⟨e, he⟩ := parseItems_error_of_invalid hex
    refine ⟨e, ?_⟩
    simp only [parse_relationships]
    rw [if_neg hs]
    exact he
  · intro g tags e herr hne
    exact process_of_parse_error st g tags (some s) e herr hne

/-- C7 witness: the unknown name `u` aborts the diagram whose start tag `a`
resolved fine: the outcome is the propagated error, and no graph node is
produced. -/
theorem claim_C7_witness :
    (parse_relationships regT (some "u") = .error (.unknownRelationship "u") ∧
      regT.is_valid_relationship "u" = false ∧
      (get_start_traceables regT ["a"]).1 ≠ []) ∧
    process_graph_node regT gChain ["a"] (some "u") =
      ((get_start_traceables regT ["a"]).2, .error (.unknownRelationship "u")) :=
  ⟨⟨by decide, by decide, by decide⟩,
    (claim_C7 regT "u").2.2 gChain ["a"] (.unknownRelationship "u") (by decide) (by decide)⟩

/-! Claim C8: unresolvable start tags. -/

/-- C8: tag resolution drops every unresolvable start tag while continuing
with the rest — the resolved start set is exactly the requested tags that
resolve, in order, and one warning carrying the offending tag is emitted per
dropped tag — and when no requested tag resolves, the diagram is replaced by
a single error diagnostic ("no valid tags") with zero graph output. -/
theorem claim_C8 (st : Storage) (tags : List String) :
    ((get_start_traceables st tags).1 = tags.filterMap st.traceable_by_tag ∧
      (get_start_traceables st tags).2 =
        (tags.filter (fun tag => (st.traceable_by_tag tag).isNone)).map tagWarning) ∧
    ∀ (g : EntityGraph) (relInput : Option String),
      tags.filterMap st.traceable_by_tag = [] →
      process_graph_node st g tags relInput =
        ((tags.filter (fun tag => (st.traceable_by_tag tag).isNone)).map tagWarning
          ++ [noValidTagsMessage], .ok (.errorDiagnostic noValidTagsMessage)) := by
  have hspec := get_start_traceables_spec st tags
  refine ⟨hspec, ?_⟩
  intro g relInput hempty
  have h1 : (get_start_traceables st tags).1 = [] := by
    rw [hspec.1]
    exact hempty
  rw [process_of_empty_start st g tags relInput h1, hspec.2]

/-- C8 witness: requesting the tags `missing-1` and `missing-2`, neither of
which resolves, yields one warning per tag and a diagram-level error
diagnostic in place of any graph output — the spec's own worked example. -/
theorem claim_C8_witness :
    (["missing-1", "missing-2"].filterMap regT.traceable_by_tag = [] ∧
      (get_start_traceables regT ["missing-1", "missing-2"]).2 =
        [tagWarning "missing-1", tagWarning "missing-2"]) ∧
    process_graph_node regT gChain ["missing-1", "missing-2"] (some "t") =
      ((["missing-1", "missing-2"].filter
          (fun tag => (regT.traceable_by_tag tag).isNone)).map tagWarning
        ++ [noValidTagsMessage], .ok (.errorDiagnostic noValidTagsMessage)) :=
  ⟨⟨by decide, by decide⟩,
    (claim_C8 regT ["missing-1", "missing-2"]).2 gChain (some "t") (by decide)⟩

/-! Claim C9: the empty spec means every type at unlimited depth. -/

/-- C9: an absent or empty relationship-spec string makes the parser return
one spec per relationship type known to the registry, each with no depth
limit, and a walk driven by these specs discovers exactly the full closure
of entities reachable from the start entities along known relationship
types. -/
theorem claim_C9 {st : Storage} {g : EntityGraph}
    (Hg : ∀ a rel, ∀ x ∈ g.rels a rel, x ∈ g.entities) :
    parse_relationships st none =
      .ok (st.relationship_directions.map fun p => (Prod.fst p, none)) ∧
    parse_relationships st (some "") =
      .ok (st.relationship_directions.map fun p => (Prod.fst p, none)) ∧
    ∀ (starts : List Nat), (∀ x ∈ starts, x ∈ g.entities) → ∀ a : Nat,
      (a ∈ traceablesSorted (construct_graph_input st g
          (st.relationship_directions.map fun p => (Prod.fst p, none))
          (sufficientFuel st g (st.relationship_directions.map fun p => (Prod.fst p, none)))
          starts) ↔
        Reachable g (st.relationship_directions.map Prod.fst) starts a) := by
  refine ⟨rfl, rfl, ?_⟩
  intro starts hstarts a
  have Hnone : ∀ p ∈ (st.relationship_directions.map fun p => (Prod.fst p, none)),
      Prod.snd p = (none : Option Int) := by
    intro p hp
    rw [List.mem_map] at hp
    obtain ⟨q, _, hq⟩ := hp
    rw [← hq]
  have hmaps : ((st.relationship_directions.map fun p => (Prod.fst p, (none : Option Int))).map
      Prod.fst) = st.relationship_directions.map Prod.fst := by
    rw [List.map_map]
    exact List.map_congr_left (fun q _ => rfl)
  rw [mem_traceablesSorted]
  have hiff := @construct_traceables_iff st g
    (st.relationship_directions.map fun p => (Prod.fst p, none)) Hg Hnone
    (sufficientFuel st g (st.relationship_directions.map fun p => (Prod.fst p, none)))
    (Nat.le_refl _) starts hstarts a
  rw [hmaps] at hiff
  exact hiff

/-- C9 witness: on the one-type registry and the cycle `0 → 1 → 2 → 0`,
the absent spec string parses to `[("t", none)]` and entity `2` — reachable
from the start `0` — is discovered. -/
theorem claim_C9_witness :
    ((∀ x ∈ [0], x ∈ gCycle.entities) ∧
      2 ∈ traceablesSorted (construct_graph_input regT gCycle [("t", none)]
        (sufficientFuel regT gCycle [("t", none)]) [0])) ∧
    parse_relationships regT none = .ok [("t", none)] ∧
    (2 ∈ traceablesSorted (construct_graph_input regT gCycle [("t", none)]
        (sufficientFuel regT gCycle [("t", none)]) [0]) ↔
      Reachable gCycle ["t"] [0] 2) :=
  ⟨⟨by decide, by decide⟩, (@claim_C9 regT gCycle gCycle_wf).1,
    (@claim_C9 regT gCycle gCycle_wf).2.2 [0] (by decide) 2⟩

/-! Claim C10: a zero depth limit is no limit at all. -/

/-- C10 (implicit behaviour): a spec item with an explicit depth suffix of
`0` is accepted by the parser without error, and the walker treats a
max-depth of `0` exactly like no limit — `0` is falsy in Python's
`if max_length and ...`, so the depth guard never fires and traversal along
the type is unbounded rather than forbidden: on the chain `0 → 1 → 2` the
walk under `("t", some 0)` still records the depth-2 edge `(1, 2)`. -/
theorem claim_C10 :
    parse_relationships regT (some "t:0") = .ok [("t", some 0)] ∧
    (∀ (st : Storage) (g : EntityGraph) (rel : String) (fuel t len : Nat) (s : GraphState),
      walkTraceable st g [(rel, some 0)] fuel t len s =
        walkTraceable st g [(rel, none)] fuel t len s) ∧
    (∀ (st : Storage) (g : EntityGraph) (rel : String) (fuel t : Nat) (s : GraphState),
      add_traceable_walk st g [(rel, some 0)] fuel t s =
        add_traceable_walk st g [(rel, none)] fuel t s) ∧
    (add_traceable_walk regT gChain [("t", some 0)]
        (sufficientFuel regT gChain [("t", some 0)]) 0 ⟨[], []⟩).rels =
      [(0, 1, "t", 1), (1, 2, "t", 1)] := by
  refine ⟨by decide, ?_, ?_, by decide⟩
  · intro st g rel fuel t len s
    exact walk_congr_zero_none st g rel fuel t len s
  · intro st g rel fuel t s
    unfold add_traceable_walk
    rw [walk_congr_zero_none]

end Traceables
